import Mathlib

/-!
# Check dispatcher, version store, checking lock and token generator

A shallow embedding of `atc/lidar/checker.go` (the check dispatcher) and of
`token_generator.go` (the token generator), together with models of the
version store and of the checking lock that the test file
`atc/db/resource_config_scope_test.go` exercises.

Go's `int` is embedded as `Int`; the `sync.Map` of the checker is an
association list; goroutines launched by `checker.Run` are an explicit pool of
executions that have not finished yet.
-/

namespace Lidar

/-! ## Data model of the dispatcher -/

/-- Errors are opaque values handed through by the dispatcher. -/
abbrev Error := String

/-- The accessors of `db.Check` that `checker.Run` reads. -/
structure Check where
  ID : Int
  TeamName : String
  PipelineName : String
  ResourceConfigScopeID : Int
  deriving DecidableEq, Repr

/-- The `sync.Map` behind `checker.running`: check ID to stored marker. -/
abbrev SyncMap := List (Int × Bool)

/-- The keys present in the map. -/
def SyncMap.keys (m : SyncMap) : List Int := m.map Prod.fst

/-- `sync.Map.LoadOrStore`: when the key is present the map is unchanged and the
existing value is returned with `loaded = true`; otherwise the given value is
stored and returned with `loaded = false`. -/
def LoadOrStore (m : SyncMap) (key : Int) (value : Bool) : SyncMap × Bool × Bool :=
  match m.find? (fun e => e.1 == key) with
  | some e => (m, e.2, true)
  | none => (m ++ [(key, value)], value, false)

/-- `sync.Map.Delete`: removes the key, a no-op when it is absent. -/
def Delete (m : SyncMap) (key : Int) : SyncMap :=
  m.filter (fun e => e.1 != key)

/-- The `checker` struct: of its fields only `running` is mutable state. -/
structure checker where
  running : SyncMap
  deriving DecidableEq, Repr

/-- `NewChecker`: the in-flight map starts empty. -/
def NewChecker : checker := { running := [] }

/-- How the engine's run of a check ended. The goroutine of `checker.Run` does
not look at it. -/
inductive Outcome where
  | succeeded
  | errored
  | cancelled
  deriving DecidableEq, Repr

/-- A checker together with what surrounds it: the goroutines it has launched
whose engine run has not returned yet, and the gauge `metric.ChecksQueueSize`
(`none` until it is first set). -/
structure World where
  c : checker
  goroutines : List Check
  ChecksQueueSize : Option Int
  deriving DecidableEq, Repr

/-- A fresh checker with nothing launched and the gauge never set. -/
def World.init : World := { c := NewChecker, goroutines := [], ChecksQueueSize := none }

/-- The IDs marked in-flight. -/
def World.inFlight (w : World) : List Int := w.c.running.keys

/-- The check IDs of the executions that are running. -/
def World.runningIDs (w : World) : List Int := w.goroutines.map Check.ID

/-- One pass of the body of the `for _, ck := range checks` loop: test-and-set
on `ck.ID()`, and `go func(check)` when the ID was not there. The flag tells
whether a goroutine was launched. -/
def iteration (w : World) (ck : Check) : World × Bool :=
  match LoadOrStore w.c.running ck.ID true with
  | (m, _, loaded) =>
    if !loaded then
      ({ w with c := { running := m }, goroutines := w.goroutines ++ [ck] }, true)
    else
      ({ w with c := { running := m } }, false)

/-- The `for` loop of `checker.Run`, returning the final state and the checks
for which a goroutine was launched, in launch order. -/
def loop : World → List Check → World × List Check
  | w, [] => (w, [])
  | w, ck :: rest =>
    let r := iteration w ck
    let rs := loop r.1 rest
    (rs.1, if r.2 then ck :: rs.2 else rs.2)

/-- What one call of `checker.Run` leaves behind. -/
structure RunResult where
  world : World
  err : Option Error
  launched : List Check
  deriving DecidableEq, Repr

/-- `checker.Run`, given what `c.checkFactory.StartedChecks()` returns. -/
def Run (w : World) (StartedChecks : Except Error (List Check)) : RunResult :=
  match StartedChecks with
  | .error err => { world := w, err := some err, launched := [] }
  | .ok checks =>
    let w1 := { w with ChecksQueueSize := some (checks.length : Int) }
    let r := loop w1 checks
    { world := r.1, err := none, launched := r.2 }

/-- The end of a launched goroutine: the engine's run of `check` has returned
(with whatever outcome) and the deferred `c.running.Delete(check.ID())` has run. -/
def finish (w : World) (check : Check) (_outcome : Outcome) : World :=
  { w with c := { running := Delete w.c.running check.ID },
           goroutines := w.goroutines.erase check }

/-- The execution for check `id`, if one is running, finishes with the given
outcome; nothing happens when there is none. -/
def complete (w : World) (id : Int) (outcome : Outcome) : World :=
  match w.goroutines.find? (fun ck => ck.ID == id) with
  | some ck => finish w ck outcome
  | none => w

/-- Several executions finish one after the other. -/
def completeAll (w : World) (done : List (Int × Outcome)) : World :=
  done.foldl (fun acc e => complete acc e.1 e.2) w

/-- The `for` loop of `checker.Run` with goroutines finishing while it runs:
`sched` lists, for each pass of the loop, the executions that finish right
before that pass. -/
def loopWith : World → List Check → List (List (Int × Outcome)) → World × List Check
  | w, [], _ => (w, [])
  | w, ck :: rest, sched =>
    let r := iteration (completeAll w (sched.headD [])) ck
    let rs := loopWith r.1 rest sched.tail
    (rs.1, if r.2 then ck :: rs.2 else rs.2)

/-- `checker.Run` with goroutines finishing while the loop runs. -/
def RunWith (w : World) (StartedChecks : Except Error (List Check))
    (sched : List (List (Int × Outcome))) : RunResult :=
  match StartedChecks with
  | .error err => { world := w, err := some err, launched := [] }
  | .ok checks =>
    let w1 := { w with ChecksQueueSize := some (checks.length : Int) }
    let r := loopWith w1 checks sched
    { world := r.1, err := none, launched := r.2 }

/-- The steps of a checker's life: a dispatch cycle (with any answer of the
listing query), the completion of a running execution, and, for cycles that
overlap with completions or with each other, a dispatch cycle during which
executions finish and a single pass of the loop. -/
inductive Step : World → World → Prop where
  | dispatch (w : World) (StartedChecks : Except Error (List Check)) :
      Step w (Run w StartedChecks).world
  | completes (w : World) (check : Check) (outcome : Outcome) :
      check ∈ w.goroutines → Step w (finish w check outcome)
  | dispatchWith (w : World) (StartedChecks : Except Error (List Check))
      (sched : List (List (Int × Outcome))) :
      Step w (RunWith w StartedChecks sched).world
  | pass (w : World) (ck : Check) :
      Step w (iteration w ck).1

/-- States reachable from a fresh checker. -/
inductive Reachable : World → Prop where
  | init : Reachable World.init
  | step {w w2 : World} : Reachable w → Step w w2 → Reachable w2

/-- The dispatcher invariant: running executions have pairwise distinct IDs and
each of them is marked in-flight. -/
def Inv (w : World) : Prop :=
  w.runningIDs.Nodup ∧ ∀ id ∈ w.runningIDs, id ∈ w.inFlight

end Lidar

namespace Db

/-! ## Data model of the version store

The store itself (`atc/db`) is exercised by `resource_config_scope_test.go`;
its operations are modelled here from the specification, the helper
`saveVersions` is taken from the test file. -/

/-- `atc.Space`: the name of a space. -/
abbrev Space := String

/-- `atc.Version`: the content of a version, an ordered mapping from string keys
to string values compared structurally. -/
abbrev Version := List (String × String)

/-- `atc.MetadataField`. -/
structure MetadataField where
  Name : String
  Value : String
  deriving DecidableEq, Repr

/-- `atc.Metadata`: an ordered list of name/value pairs. -/
abbrev Metadata := List MetadataField

/-- `atc.SpaceVersion`: what a check reports. -/
structure SpaceVersion where
  Space : Space
  Version : Version
  Metadata : Metadata
  deriving DecidableEq, Repr

/-- A stored version (`db.ResourceVersion`): its space, content, metadata and
check order. -/
structure ResourceVersion where
  space : Space
  version : Version
  metadata : Metadata
  checkOrder : Nat
  deriving DecidableEq, Repr

/-- A registered space with its latest pointer. -/
structure SpaceRow where
  name : Space
  latest : Option Version
  deriving DecidableEq, Repr

/-- The errors the store reports for misconfiguration. -/
inductive StoreError where
  | spaceNotFound
  | versionNotFound
  deriving DecidableEq, Repr

/-- Modelled from the spec: the state behind a `db.ResourceConfig`, whose
implementation is not among the sources. Spaces in registration order, the
default space, the stored versions in insertion order, and the versions
buffered by `SavePartialVersion` since the last commit. -/
structure ResourceConfig where
  spaces : List SpaceRow
  defaultSpace : Option Space
  versions : List ResourceVersion
  pending : List SpaceVersion
  deriving DecidableEq, Repr

/-- Modelled from the spec: a resource config is created with no space and no
version. -/
def NewResourceConfig : ResourceConfig :=
  { spaces := [], defaultSpace := none, versions := [], pending := [] }

/-- The names of the registered spaces, in registration order. -/
def ResourceConfig.spaceNames (rc : ResourceConfig) : List Space :=
  rc.spaces.map SpaceRow.name

/-- The identity of a stored version: its space and its content. -/
def ResourceVersion.key (r : ResourceVersion) : Space × Version := (r.space, r.version)

/-- Modelled from the spec: the highest check order used in a space so far, 0
when there is none. -/
def maxCheckOrder (versions : List ResourceVersion) (space : Space) : Nat :=
  ((versions.filter (fun r => r.space = space)).map ResourceVersion.checkOrder).foldr max 0

/-- Modelled from the spec: `ResourceConfig.SaveSpace`, whose body is not among
the sources. `SaveSpace(space)` registers the space, and is a no-op without
error when it is registered already. -/
def SaveSpace (rc : ResourceConfig) (space : Space) : ResourceConfig × Option StoreError :=
  if space ∈ rc.spaceNames then (rc, none)
  else ({ rc with spaces := rc.spaces ++ [{ name := space, latest := none }] }, none)

/-- Modelled from the spec: `ResourceConfig.SavePartialVersion`, whose body is
not among the sources. `SavePartialVersion(space, content, metadata)` buffers
the version for the next commit, and fails with "space not found", changing
nothing, when the space is not registered. -/
def SavePartialVersion (rc : ResourceConfig) (space : Space) (version : Version)
    (metadata : Metadata) : ResourceConfig × Option StoreError :=
  if space ∈ rc.spaceNames then
    ({ rc with pending := rc.pending ++
        [{ Space := space, Version := version, Metadata := metadata }] }, none)
  else (rc, some StoreError.spaceNotFound)

/-- Modelled from the spec: the check-order assignment inside the commit, whose
code is not among the sources. One reported version receives a fresh check order,
the highest one used in its space so far plus one; a version that is stored
already keeps its row and only has its check order replaced. Returns the rows
and the value handed out. -/
def assignOrder (versions : List ResourceVersion) (p : SpaceVersion) :
    List ResourceVersion × Nat :=
  let order := maxCheckOrder versions p.Space + 1
  if (p.Space, p.Version) ∈ versions.map ResourceVersion.key then
    (versions.map (fun r =>
      if r.key = (p.Space, p.Version) then { r with checkOrder := order } else r), order)
  else
    (versions ++ [{ space := p.Space, version := p.Version, metadata := p.Metadata,
                    checkOrder := order }], order)

/-- Modelled from the spec: the commit behind `FinishSavingVersions`, whose code
is not among the sources. It assigns check orders to the buffered versions in
the order they were buffered. Returns the rows and the values handed out, in
that order. -/
def commit : List ResourceVersion → List SpaceVersion → List ResourceVersion × List Nat
  | versions, [] => (versions, [])
  | versions, p :: rest =>
    let a := assignOrder versions p
    let c := commit a.1 rest
    (c.1, a.2 :: c.2)

/-- Modelled from the spec: `ResourceConfig.FinishSavingVersions`, whose body is
not among the sources. It commits everything buffered since the last commit
and empties the buffer. -/
def FinishSavingVersions (rc : ResourceConfig) : ResourceConfig × Option StoreError :=
  ({ rc with versions := (commit rc.versions rc.pending).1, pending := [] }, none)

/-- The check orders the next `FinishSavingVersions()` hands out, in the order
the versions were buffered. -/
def assignedOrders (rc : ResourceConfig) : List Nat :=
  (commit rc.versions rc.pending).2

/-- Modelled from the spec: `ResourceConfig.FindVersion`, whose body is not among
the sources. `FindVersion(space, content)` looks a stored version up by exact
content within a space; absence is not an error. -/
def FindVersion (rc : ResourceConfig) (space : Space) (version : Version) :
    Option ResourceVersion × Option StoreError :=
  (rc.versions.find? (fun r => decide (r.key = (space, version))), none)

/-- Modelled from the spec: `ResourceConfig.SaveSpaceLatestVersion`, whose body
is not among the sources. `SaveSpaceLatestVersion(space, content)` points the
latest pointer of the space at the version with that content, and fails when
the space holds no such version. -/
def SaveSpaceLatestVersion (rc : ResourceConfig) (space : Space) (version : Version) :
    ResourceConfig × Option StoreError :=
  if (space, version) ∈ rc.versions.map ResourceVersion.key then
    ({ rc with spaces := rc.spaces.map (fun sp =>
        if sp.name = space then { sp with latest := some version } else sp) }, none)
  else (rc, some StoreError.versionNotFound)

/-- Modelled from the spec: `ResourceConfig.LatestVersions`, whose body is not
among the sources. It returns, in registration order of the spaces, the
version each latest pointer points at. -/
def LatestVersions (rc : ResourceConfig) : List ResourceVersion × Option StoreError :=
  (rc.spaces.filterMap (fun sp =>
    match sp.latest with
    | none => none
    | some v => rc.versions.find? (fun r => decide (r.key = (sp.name, v)))), none)

/-- The `for` loop of the test helper `saveVersions`: `SaveSpace` then
`SavePartialVersion` for each version; `none` when an `Expect` fails. -/
def saveVersionsLoop : ResourceConfig → List SpaceVersion → Option ResourceConfig
  | rc, [] => some rc
  | rc, version :: rest =>
    match SaveSpace rc version.Space with
    | (_, some _) => none
    | (rc1, none) =>
      match SavePartialVersion rc1 version.Space version.Version version.Metadata with
      | (_, some _) => none
      | (rc2, none) => saveVersionsLoop rc2 rest

/-- The test helper `saveVersions`: the loop, then `FinishSavingVersions`. -/
def saveVersions (rc : ResourceConfig) (versions : List SpaceVersion) :
    Option ResourceConfig :=
  match saveVersionsLoop rc versions with
  | none => none
  | some rc1 =>
    match FinishSavingVersions rc1 with
    | (_, some _) => none
    | (rc2, none) => some rc2

/-- A sequence of commit batches, each saved with `saveVersions`. Returns the
final state and, per batch, the check orders its commit handed out. -/
def saveBatches : ResourceConfig → List (List SpaceVersion) →
    Option (ResourceConfig × List (List Nat))
  | rc, [] => some (rc, [])
  | rc, batch :: rest =>
    match saveVersionsLoop rc batch, saveVersions rc batch with
    | some rc1, some rc2 =>
      match saveBatches rc2 rest with
      | some (rc3, assigned) => some (rc3, assignedOrders rc1 :: assigned)
      | none => none
    | _, _ => none

/-- The well-formedness of the stored rows: no two rows for the same version of
a space, and no two rows of a space with the same check order. -/
def RowsWF (versions : List ResourceVersion) : Prop :=
  (versions.map ResourceVersion.key).Nodup ∧
  (versions.map (fun r => (r.space, r.checkOrder))).Nodup

/-- Every stored and every buffered version belongs to a registered space. -/
def Registered (rc : ResourceConfig) : Prop :=
  (∀ r ∈ rc.versions, r.space ∈ rc.spaceNames) ∧
  (∀ p ∈ rc.pending, p.Space ∈ rc.spaceNames)

/-- The versions of a batch reported into one space. -/
def inSpace (space : Space) (batch : List (Version × Metadata)) : List SpaceVersion :=
  batch.map (fun p => { Space := space, Version := p.1, Metadata := p.2 })

/-- The operations on a resource config that the claims range over. -/
inductive Op where
  | saveSpace (space : Space)
  | savePartialVersion (space : Space) (version : Version) (metadata : Metadata)
  | finishSavingVersions
  | saveSpaceLatestVersion (space : Space) (version : Version)
  deriving DecidableEq, Repr

/-- The state an operation leaves behind. -/
def Op.apply (rc : ResourceConfig) : Op → ResourceConfig
  | .saveSpace space => (SaveSpace rc space).1
  | .savePartialVersion space version metadata =>
      (SavePartialVersion rc space version metadata).1
  | .finishSavingVersions => (FinishSavingVersions rc).1
  | .saveSpaceLatestVersion space version => (SaveSpaceLatestVersion rc space version).1

/-- The state after a sequence of operations on a new resource config. -/
def runOps (ops : List Op) : ResourceConfig :=
  ops.foldl Op.apply NewResourceConfig

/-- The latest pointer of a space, `none` when the space is not registered or
its pointer has not been set. -/
def latestOf (rc : ResourceConfig) (space : Space) : Option Version :=
  (rc.spaces.find? (fun sp => decide (sp.name = space))).bind SpaceRow.latest

/-- In the words of the spec: the version last passed to `SaveSpaceLatestVersion`
for `space` in a call that succeeded, `acc` when `op` is no such call. -/
def Op.passed (rc : ResourceConfig) (space : Space) (acc : Option Version) :
    Op → Option Version
  | .saveSpaceLatestVersion s v =>
    if s = space ∧ (SaveSpaceLatestVersion rc s v).2 = none then some v else acc
  | _ => acc

/-- In the words of the spec: the version last passed to a successful
`SaveSpaceLatestVersion` for `space` along a sequence of operations that
starts in state `rc`, `acc` when there is no such call. -/
def lastPassedFrom : ResourceConfig → Option Version → Space → List Op → Option Version
  | _, acc, _, [] => acc
  | rc, acc, space, op :: rest =>
    lastPassedFrom (op.apply rc) (op.passed rc space acc) space rest

/-- In the words of the spec: the version last passed to a successful
`SaveSpaceLatestVersion` for `space` since the resource config was created. -/
def lastPassed (ops : List Op) (space : Space) : Option Version :=
  lastPassedFrom NewResourceConfig none space ops

/-- The well-formedness of the registered spaces: no space is registered twice,
and every latest pointer points at a stored version of its space. -/
def SpacesWF (rc : ResourceConfig) : Prop :=
  rc.spaceNames.Nodup ∧
  ∀ sp ∈ rc.spaces, ∀ v, sp.latest = some v →
    (sp.name, v) ∈ rc.versions.map ResourceVersion.key

/-! ## Data model of the checking lock -/

/-- Modelled from the spec: the checking-lock state of a resource config scope,
whose implementation is not among the sources: the time of the last recorded
check (`none` when there has been none) and whether the lock is held. Times
and durations are nanoseconds, as in `time.Duration`. -/
structure ResourceConfigScope where
  lastChecked : Option Int
  lockHeld : Bool
  deriving DecidableEq, Repr

/-- A scope that has never been checked and whose lock is free. -/
def NewResourceConfigScope : ResourceConfigScope :=
  { lastChecked := none, lockHeld := false }

/-- `time.Second` in nanoseconds. -/
def Second : Int := 1000000000

/-- `time.Millisecond` in nanoseconds. -/
def Millisecond : Int := 1000000

/-- Modelled from the spec: the rate gate is open when no check is recorded or
the time since the stored `last_checked` is at least `interval`. -/
def intervalElapsed (sc : ResourceConfigScope) (now interval : Int) : Bool :=
  match sc.lastChecked with
  | none => true
  | some t => decide (interval ≤ now - t)

/-- Modelled from the spec: `ResourceConfigScope.UpdateLastChecked`, whose body
is not among the sources. `UpdateLastChecked(interval, immediate)` at time
`now` records the check and returns true when `immediate` is set or the
interval has elapsed, and otherwise changes nothing and returns false. -/
def UpdateLastChecked (sc : ResourceConfigScope) (now interval : Int) (immediate : Bool) :
    ResourceConfigScope × Bool × Option StoreError :=
  if immediate || intervalElapsed sc now interval then
    ({ sc with lastChecked := some now }, true, none)
  else (sc, false, none)

/-- Modelled from the spec: `ResourceConfigScope.AcquireResourceCheckingLock`,
whose body is not among the sources. `AcquireResourceCheckingLock(interval)`
at time `now` fails, without error, when the lock is held or when a check was recorded
within `interval` of `now`, and otherwise grants the lock. The grant itself
records no check: in the test "and the lock gets released / gets the lock" a
second acquisition with the same interval succeeds right after `Release()`. -/
def AcquireResourceCheckingLock (sc : ResourceConfigScope) (now interval : Int) :
    ResourceConfigScope × Bool × Option StoreError :=
  if sc.lockHeld then (sc, false, none)
  else if intervalElapsed sc now interval then ({ sc with lockHeld := true }, true, none)
  else (sc, false, none)

/-- Modelled from the spec: `lock.Lock.Release`, whose body is not among the
sources. `Release()` on the lock handle frees the lock. -/
def Release (sc : ResourceConfigScope) : ResourceConfigScope × Option StoreError :=
  ({ sc with lockHeld := false }, none)

/-- One call of `UpdateLastChecked`: the time it is made at and its arguments. -/
structure Call where
  now : Int
  interval : Int
  immediate : Bool
  deriving DecidableEq, Repr

/-- A sequence of `UpdateLastChecked` calls on one scope: the scope they leave
and what each of them returned. -/
def runCalls : ResourceConfigScope → List Call → ResourceConfigScope × List Bool
  | sc, [] => (sc, [])
  | sc, call :: rest =>
    let r := UpdateLastChecked sc call.now call.interval call.immediate
    let rs := runCalls r.1 rest
    (rs.1, r.2.1 :: rs.2)

end Db

namespace Auth

/-! ## Data model of the token generator (`token_generator.go`) -/

/-- Errors are opaque values handed through by the generator. -/
abbrev Error := String

/-- `type TokenType string`. -/
abbrev TokenType := String

/-- `type TokenValue string`. -/
abbrev TokenValue := String

/-- `const TokenTypeBearer = "Bearer"`. -/
def TokenTypeBearer : TokenType := "Bearer"

/-- A `time.Time`, of which `GenerateToken` reads only the seconds since the
epoch. -/
structure Time where
  sec : Int
  nsec : Nat
  deriving DecidableEq, Repr

/-- `time.Time.Unix`: the seconds since the epoch, an `int64`. -/
def Time.Unix (t : Time) : Int := t.sec

/-- The values `GenerateToken` stores in the `map[string]interface{}` of claims:
an `int64`, a `string` and an `int`. -/
inductive ClaimValue where
  | int64 (v : Int)
  | str (v : String)
  | int (v : Int)
  deriving DecidableEq, Repr

/-- A `jwt.Token` as far as `GenerateToken` touches it: the signing method and
the claims map. The type of signing methods is a parameter. -/
structure jwt.Token (Method : Type) where
  Method : Method
  Claims : List (String × ClaimValue)

/-- `jwt.New(method)`: a token for the method with an empty claims map. -/
def jwt.New {Method : Type} (method : Method) : jwt.Token Method :=
  { Method := method, Claims := [] }

/-- The map assignment `token.Claims[key] = value`. -/
def jwt.Token.setClaim {Method : Type} (token : jwt.Token Method) (key : String)
    (value : ClaimValue) : jwt.Token Method :=
  { token with Claims := token.Claims.filter (fun e => e.1 != key) ++ [(key, value)] }

/-- The map read `token.Claims[key]`. -/
def jwt.Token.claim {Method : Type} (token : jwt.Token Method) (key : String) :
    Option ClaimValue :=
  (token.Claims.find? (fun e => e.1 == key)).map Prod.snd

/-- `type tokenGenerator struct`. The type of private keys is a parameter. -/
structure tokenGenerator (Key : Type) where
  privateKey : Key

/-- `NewTokenGenerator`. -/
def NewTokenGenerator {Key : Type} (privateKey : Key) : tokenGenerator Key :=
  { privateKey := privateKey }

/-- `tokenGenerator.GenerateToken`. The package constant `SigningMethod` and the
library method `jwt.Token.SignedString` are parameters. -/
def GenerateToken {Key Method : Type} (SigningMethod : Method)
    (SignedString : jwt.Token Method → Key → Except Error String)
    (generator : tokenGenerator Key) (expiration : Time) (teamName : String)
    (teamID : Int) : TokenType × TokenValue × Option Error :=
  let jwtToken := jwt.New SigningMethod
  let jwtToken := jwtToken.setClaim "exp" (ClaimValue.int64 expiration.Unix)
  let jwtToken := jwtToken.setClaim "teamName" (ClaimValue.str teamName)
  let jwtToken := jwtToken.setClaim "teamID" (ClaimValue.int teamID)
  match SignedString jwtToken generator.privateKey with
  | .error err => ("", "", some err)
  | .ok signed => (TokenTypeBearer, signed, none)

end Auth

namespace Lidar

/-! ## Lemmas on the in-flight map -/

theorem find?_key_eq_none (m : SyncMap) (key : Int) :
    m.find? (fun e => e.1 == key) = none ↔ key ∉ m.keys := by
  rw [List.find?_eq_none]
  unfold SyncMap.keys
  rw [List.mem_map]
  constructor
  · rintro h ⟨e, he, hek⟩
    exact h e he (by simp [hek])
  · intro h e he hp
    exact h ⟨e, he, by simpa using hp⟩

theorem LoadOrStore_loaded (m : SyncMap) (key : Int) (value : Bool) :
    (LoadOrStore m key value).2.2 = decide (key ∈ m.keys) := by
  unfold LoadOrStore
  cases hf : m.find? (fun e => e.1 == key) with
  | none =>
    have := (find?_key_eq_none m key).1 hf
    simp [this]
  | some e =>
    have : key ∈ m.keys := by
      by_contra hc
      rw [(find?_key_eq_none m key).2 hc] at hf
      cases hf
    simp [this]

theorem LoadOrStore_keys (m : SyncMap) (key : Int) (value : Bool) :
    (LoadOrStore m key value).1.keys =
      if key ∈ m.keys then m.keys else m.keys ++ [key] := by
  unfold LoadOrStore
  cases hf : m.find? (fun e => e.1 == key) with
  | none =>
    have := (find?_key_eq_none m key).1 hf
    rw [if_neg this]
    simp [SyncMap.keys]
  | some e =>
    have : key ∈ m.keys := by
      by_contra hc
      rw [(find?_key_eq_none m key).2 hc] at hf
      cases hf
    rw [if_pos this]

theorem Delete_keys (m : SyncMap) (key : Int) :
    (Delete m key).keys = m.keys.filter (fun k => k != key) := by
  unfold Delete SyncMap.keys
  rw [List.filter_map]
  rfl

theorem mem_Delete_keys (m : SyncMap) (key id : Int) :
    id ∈ (Delete m key).keys ↔ id ∈ m.keys ∧ id ≠ key := by
  rw [Delete_keys]
  simp

/-! ## Lemmas on one pass of the loop -/

theorem iteration_launched (w : World) (ck : Check) :
    (iteration w ck).2 = decide (ck.ID ∉ w.inFlight) := by
  have h := LoadOrStore_loaded w.c.running ck.ID true
  unfold iteration
  rcases hl : LoadOrStore w.c.running ck.ID true with ⟨m, v, loaded⟩
  rw [hl] at h
  simp only at h
  by_cases hm : ck.ID ∈ w.inFlight
  · have hm2 : ck.ID ∈ w.c.running.keys := hm
    simp [h, hm, hm2]
  · have hm2 : ck.ID ∉ w.c.running.keys := hm
    simp [h, hm, hm2]

theorem iteration_inFlight (w : World) (ck : Check) :
    (iteration w ck).1.inFlight =
      if ck.ID ∈ w.inFlight then w.inFlight else w.inFlight ++ [ck.ID] := by
  have h := LoadOrStore_loaded w.c.running ck.ID true
  have hk := LoadOrStore_keys w.c.running ck.ID true
  unfold iteration
  rcases hl : LoadOrStore w.c.running ck.ID true with ⟨m, v, loaded⟩
  rw [hl] at h hk
  simp only at h hk
  by_cases hm : ck.ID ∈ w.c.running.keys
  · simp [World.inFlight, h, hm, hk]
  · simp [World.inFlight, h, hm, hk]

theorem iteration_goroutines (w : World) (ck : Check) :
    (iteration w ck).1.goroutines =
      if ck.ID ∈ w.inFlight then w.goroutines else w.goroutines ++ [ck] := by
  have h := LoadOrStore_loaded w.c.running ck.ID true
  unfold iteration
  rcases hl : LoadOrStore w.c.running ck.ID true with ⟨m, v, loaded⟩
  rw [hl] at h
  simp only at h
  by_cases hm : ck.ID ∈ w.c.running.keys
  · simp [World.inFlight, h, hm]
  · simp [World.inFlight, h, hm]

theorem iteration_queueSize (w : World) (ck : Check) :
    (iteration w ck).1.ChecksQueueSize = w.ChecksQueueSize := by
  unfold iteration
  rcases LoadOrStore w.c.running ck.ID true with ⟨m, v, loaded⟩
  cases loaded <;> simp

theorem iteration_eq (w : World) (ck : Check) :
    iteration w ck =
      if ck.ID ∈ w.inFlight then (w, false)
      else ({ w with c := { running := w.c.running ++ [(ck.ID, true)] },
                     goroutines := w.goroutines ++ [ck] }, true) := by
  unfold iteration LoadOrStore
  cases hf : w.c.running.find? (fun e => e.1 == ck.ID) with
  | none =>
    have hm : ck.ID ∉ w.inFlight := (find?_key_eq_none _ _).1 hf
    simp [hm]
  | some e =>
    have hm : ck.ID ∈ w.inFlight := by
      by_contra hc
      rw [(find?_key_eq_none _ _).2 hc] at hf
      cases hf
    simp [hm]

theorem iteration_setQueueSize (w : World) (ck : Check) (q : Option Int) :
    iteration { w with ChecksQueueSize := q } ck =
      ({ (iteration w ck).1 with ChecksQueueSize := q }, (iteration w ck).2) := by
  rw [iteration_eq, iteration_eq]
  by_cases hm : ck.ID ∈ w.inFlight
  · have hm2 : ck.ID ∈ World.inFlight { w with ChecksQueueSize := q } := hm
    rw [if_pos hm, if_pos hm2]
  · have hm2 : ck.ID ∉ World.inFlight { w with ChecksQueueSize := q } := hm
    rw [if_neg hm, if_neg hm2]

/-! ## Lemmas on the whole loop -/

theorem loop_setQueueSize (w : World) (checks : List Check) (q : Option Int) :
    loop { w with ChecksQueueSize := q } checks =
      ({ (loop w checks).1 with ChecksQueueSize := q }, (loop w checks).2) := by
  induction checks generalizing w with
  | nil => rfl
  | cons ck rest ih =>
    simp only [loop]
    rw [iteration_setQueueSize]
    simp only
    rw [ih]

theorem loop_queueSize (w : World) (checks : List Check) :
    (loop w checks).1.ChecksQueueSize = w.ChecksQueueSize := by
  induction checks generalizing w with
  | nil => rfl
  | cons ck rest ih =>
    simp only [loop]
    rw [ih, iteration_queueSize]

theorem loop_append (w : World) (pre post : List Check) :
    loop w (pre ++ post) =
      ((loop (loop w pre).1 post).1, (loop w pre).2 ++ (loop (loop w pre).1 post).2) := by
  induction pre generalizing w with
  | nil => simp [loop]
  | cons ck rest ih =>
    show loop w (ck :: (rest ++ post)) = _
    simp only [loop]
    rw [ih]
    cases (iteration w ck).2 <;> simp

theorem loop_goroutines (w : World) (checks : List Check) :
    (loop w checks).1.goroutines = w.goroutines ++ (loop w checks).2 := by
  induction checks generalizing w with
  | nil => simp [loop]
  | cons ck rest ih =>
    simp only [loop]
    rw [ih, iteration_goroutines, iteration_launched]
    by_cases hm : ck.ID ∈ w.inFlight <;> simp [hm]

theorem loop_mem_inFlight (w : World) (checks : List Check) (id : Int) :
    id ∈ (loop w checks).1.inFlight ↔ id ∈ w.inFlight ∨ id ∈ checks.map Check.ID := by
  induction checks generalizing w with
  | nil => simp [loop]
  | cons ck rest ih =>
    simp only [loop]
    rw [ih, iteration_inFlight]
    by_cases hm : ck.ID ∈ w.inFlight
    · rw [if_pos hm]
      simp only [List.map_cons, List.mem_cons]
      constructor
      · rintro (h | h)
        · exact Or.inl h
        · exact Or.inr (Or.inr h)
      · rintro (h | h | h)
        · exact Or.inl h
        · exact Or.inl (h ▸ hm)
        · exact Or.inr h
    · rw [if_neg hm]
      simp only [List.map_cons, List.mem_cons, List.mem_append, List.mem_singleton]
      tauto

theorem loop_launched_sublist (w : World) (checks : List Check) :
    (loop w checks).2.Sublist checks := by
  induction checks generalizing w with
  | nil => simp [loop]
  | cons ck rest ih =>
    simp only [loop]
    cases (iteration w ck).2
    · exact List.Sublist.cons _ (ih _)
    · exact List.Sublist.cons₂ _ (ih _)

theorem loop_launched_count (w : World) (checks : List Check) (id : Int) :
    ((loop w checks).2.map Check.ID).count id =
      if id ∈ checks.map Check.ID ∧ id ∉ w.inFlight then 1 else 0 := by
  induction checks generalizing w with
  | nil => simp [loop]
  | cons ck rest ih =>
    simp only [loop]
    rw [iteration_launched]
    by_cases hm : ck.ID ∈ w.inFlight
    · have h1 : (iteration w ck).1.inFlight = w.inFlight := by
        rw [iteration_inFlight, if_pos hm]
      simp only [hm, not_true_eq_false, decide_False, Bool.false_eq_true, if_false]
      rw [ih, h1]
      by_cases hid : id = ck.ID
      · subst hid
        simp [hm]
      · simp [hid]
    · have h1 : (iteration w ck).1.inFlight = w.inFlight ++ [ck.ID] := by
        rw [iteration_inFlight, if_neg hm]
      simp only [hm, not_false_eq_true, decide_True, if_true, List.map_cons]
      by_cases hid : id = ck.ID
      · subst hid
        rw [List.count_cons_self, ih, h1]
        simp [hm]
      · rw [List.count_cons_of_ne hid, ih, h1]
        simp [hid]

theorem loop_launched_not_inFlight (w : World) (checks : List Check) (l : Check)
    (hl : l ∈ (loop w checks).2) : l.ID ∉ w.inFlight := by
  have hc := loop_launched_count w checks l.ID
  have hpos : 0 < ((loop w checks).2.map Check.ID).count l.ID :=
    List.count_pos_iff.2 (List.mem_map_of_mem _ hl)
  by_contra hm
  rw [if_neg (fun h => h.2 hm)] at hc
  omega

theorem Run_ok (w : World) (checks : List Check) :
    Run w (.ok checks) =
      { world := { (loop w checks).1 with ChecksQueueSize := some (checks.length : Int) },
        err := none, launched := (loop w checks).2 } := by
  simp only [Run]
  rw [loop_setQueueSize]

theorem Run_ok_inFlight (w : World) (checks : List Check) :
    (Run w (.ok checks)).world.inFlight = (loop w checks).1.inFlight := by
  rw [Run_ok]
  rfl

theorem Run_ok_goroutines (w : World) (checks : List Check) :
    (Run w (.ok checks)).world.goroutines = (loop w checks).1.goroutines := by
  rw [Run_ok]

/-! ## The invariant is kept by every step -/

theorem Inv_init : Inv World.init := by
  simp [Inv, World.init, World.runningIDs, World.inFlight]

theorem iteration_Inv (w : World) (ck : Check) (h : Inv w) : Inv (iteration w ck).1 := by
  obtain ⟨hnd, hsub⟩ := h
  unfold Inv World.runningIDs at *
  rw [iteration_goroutines, iteration_inFlight]
  by_cases hm : ck.ID ∈ w.inFlight
  · rw [if_pos hm, if_pos hm]
    exact ⟨hnd, hsub⟩
  · rw [if_neg hm, if_neg hm]
    have hnot : ck.ID ∉ w.goroutines.map Check.ID := fun hc => hm (hsub _ hc)
    refine ⟨?_, ?_⟩
    · rw [List.map_append, List.map_singleton]
      exact List.Nodup.append hnd (List.nodup_singleton _)
        (by
          intro a ha hb
          rw [List.mem_singleton] at hb
          exact hnot (hb ▸ ha))
    · intro id hid
      rw [List.map_append, List.map_singleton, List.mem_append, List.mem_singleton] at hid
      rw [List.mem_append, List.mem_singleton]
      rcases hid with hid | hid
      · exact Or.inl (hsub id hid)
      · exact Or.inr hid

theorem loop_Inv (w : World) (checks : List Check) (h : Inv w) : Inv (loop w checks).1 := by
  induction checks generalizing w with
  | nil => exact h
  | cons ck rest ih =>
    simp only [loop]
    exact ih _ (iteration_Inv w ck h)

theorem Run_Inv (w : World) (StartedChecks : Except Error (List Check)) (h : Inv w) :
    Inv (Run w StartedChecks).world := by
  cases StartedChecks with
  | error e => exact h
  | ok checks =>
    have h2 := loop_Inv w checks h
    unfold Inv World.runningIDs at *
    rw [Run_ok_inFlight, Run_ok_goroutines]
    exact h2

theorem finish_inFlight (w : World) (check : Check) (outcome : Outcome) (id : Int) :
    id ∈ (finish w check outcome).inFlight ↔ id ∈ w.inFlight ∧ id ≠ check.ID := by
  unfold finish World.inFlight
  exact mem_Delete_keys _ _ _

theorem finish_Inv (w : World) (check : Check) (outcome : Outcome) (h : Inv w)
    (hin : check ∈ w.goroutines) : Inv (finish w check outcome) := by
  obtain ⟨hnd, hsub⟩ := h
  unfold Inv
  have hg : (finish w check outcome).goroutines = w.goroutines.erase check := rfl
  have hnd2 : w.goroutines.Nodup := List.Nodup.of_map _ hnd
  refine ⟨?_, ?_⟩
  · unfold World.runningIDs at *
    rw [hg]
    exact List.Nodup.sublist (List.Sublist.map _ (List.erase_sublist _ _)) hnd
  · intro id hid
    rw [finish_inFlight]
    unfold World.runningIDs at hid hsub hnd
    rw [hg, List.mem_map] at hid
    obtain ⟨ck2, hck2, rfl⟩ := hid
    have hne : ck2 ≠ check ∧ ck2 ∈ w.goroutines := (List.Nodup.mem_erase_iff hnd2).1 hck2
    refine ⟨hsub _ (List.mem_map_of_mem _ hne.2), ?_⟩
    intro heq
    exact hne.1 (List.inj_on_of_nodup_map hnd hne.2 hin heq)

theorem complete_Inv (w : World) (id : Int) (outcome : Outcome) (h : Inv w) :
    Inv (complete w id outcome) := by
  unfold complete
  cases hf : w.goroutines.find? (fun ck => ck.ID == id) with
  | none => exact h
  | some ck => exact finish_Inv w ck outcome h (List.mem_of_find?_eq_some hf)

theorem completeAll_Inv (w : World) (done : List (Int × Outcome)) (h : Inv w) :
    Inv (completeAll w done) := by
  induction done generalizing w with
  | nil => exact h
  | cons e rest ih =>
    simp only [completeAll, List.foldl_cons]
    exact ih _ (complete_Inv w e.1 e.2 h)

theorem loopWith_Inv (w : World) (checks : List Check)
    (sched : List (List (Int × Outcome))) (h : Inv w) :
    Inv (loopWith w checks sched).1 := by
  induction checks generalizing w sched with
  | nil => exact h
  | cons ck rest ih =>
    simp only [loopWith]
    exact ih _ _ (iteration_Inv _ ck (completeAll_Inv w _ h))

theorem RunWith_Inv (w : World) (StartedChecks : Except Error (List Check))
    (sched : List (List (Int × Outcome))) (h : Inv w) :
    Inv (RunWith w StartedChecks sched).world := by
  cases StartedChecks with
  | error e => exact h
  | ok checks =>
    simp only [RunWith]
    apply loopWith_Inv
    exact h

theorem Step_Inv {w w2 : World} (hs : Step w w2) (h : Inv w) : Inv w2 := by
  cases hs with
  | dispatch listing => exact Run_Inv w listing h
  | completes check outcome hin => exact finish_Inv w check outcome h hin
  | dispatchWith listing sched => exact RunWith_Inv w listing sched h
  | pass ck => exact iteration_Inv w ck h

theorem Reachable_Inv {w : World} (hr : Reachable w) : Inv w := by
  induction hr with
  | init => exact Inv_init
  | step _ hs ih => exact Step_Inv hs ih

/-! ## Completions while the loop runs -/

theorem complete_outcome_irrelevant (w : World) (id : Int) (o1 o2 : Outcome) :
    complete w id o1 = complete w id o2 := by
  unfold complete
  cases w.goroutines.find? (fun ck => ck.ID == id) <;> rfl

theorem completeAll_congr (w : World) (l1 l2 : List (Int × Outcome))
    (h : l1.map Prod.fst = l2.map Prod.fst) : completeAll w l1 = completeAll w l2 := by
  induction l1 generalizing w l2 with
  | nil =>
    cases l2 with
    | nil => rfl
    | cons e rest => simp at h
  | cons e1 rest1 ih =>
    cases l2 with
    | nil => simp at h
    | cons e2 rest2 =>
      simp only [List.map_cons, List.cons.injEq] at h
      simp only [completeAll, List.foldl_cons]
      rw [complete_outcome_irrelevant w e1.1 e1.2 e2.2, h.1]
      exact ih _ _ h.2

theorem loopWith_congr (w : World) (checks : List Check)
    (sched sched2 : List (List (Int × Outcome)))
    (h : sched.map (fun l => l.map Prod.fst) = sched2.map (fun l => l.map Prod.fst)) :
    loopWith w checks sched = loopWith w checks sched2 := by
  induction checks generalizing w sched sched2 with
  | nil => rfl
  | cons ck rest ih =>
    have hhead : completeAll w (sched.headD []) = completeAll w (sched2.headD []) := by
      apply completeAll_congr
      cases sched with
      | nil =>
        cases sched2 with
        | nil => rfl
        | cons b bs => simp at h
      | cons a as =>
        cases sched2 with
        | nil => simp at h
        | cons b bs =>
          simp only [List.map_cons, List.cons.injEq] at h
          exact h.1
    have htail : sched.tail.map (fun l => l.map Prod.fst) =
        sched2.tail.map (fun l => l.map Prod.fst) := by
      cases sched with
      | nil =>
        cases sched2 with
        | nil => rfl
        | cons b bs => simp at h
      | cons a as =>
        cases sched2 with
        | nil => simp at h
        | cons b bs =>
          simp only [List.map_cons, List.cons.injEq] at h
          exact h.2
    simp only [loopWith]
    rw [hhead, ih _ _ _ htail]

theorem complete_inFlight_subset (w : World) (key : Int) (o : Outcome) (id : Int)
    (h : id ∈ (complete w key o).inFlight) : id ∈ w.inFlight := by
  unfold complete at h
  cases hf : w.goroutines.find? (fun ck => ck.ID == key) with
  | none =>
    rw [hf] at h
    exact h
  | some ck =>
    rw [hf] at h
    exact ((finish_inFlight w ck o id).1 h).1

theorem completeAll_inFlight_subset (w : World) (done : List (Int × Outcome)) (id : Int)
    (h : id ∈ (completeAll w done).inFlight) : id ∈ w.inFlight := by
  induction done generalizing w with
  | nil => exact h
  | cons e rest ih =>
    simp only [completeAll, List.foldl_cons] at h
    exact complete_inFlight_subset w e.1 e.2 id (ih _ h)

theorem loopWith_launches (w : World) (checks : List Check)
    (sched : List (List (Int × Outcome))) (ck : Check) (hck : ck ∈ checks)
    (hnot : ck.ID ∉ w.inFlight) :
    ck.ID ∈ (loopWith w checks sched).2.map Check.ID := by
  induction checks generalizing w sched with
  | nil => cases hck
  | cons c0 rest ih =>
    simp only [loopWith]
    have hsub : ∀ id, id ∉ w.inFlight → id ∉ (completeAll w (sched.headD [])).inFlight :=
      fun id hn hc => hn (completeAll_inFlight_subset w _ id hc)
    rw [iteration_launched]
    by_cases h0 : c0.ID ∈ (completeAll w (sched.headD [])).inFlight
    · -- `c0` is skipped, so `ck` is another check of the listing
      have hne : ck ≠ c0 := fun he => hsub _ hnot (he ▸ h0)
      have hrest : ck ∈ rest := by
        rcases List.mem_cons.1 hck with he | hr
        · exact absurd he hne
        · exact hr
      have hinf : (iteration (completeAll w (sched.headD [])) c0).1.inFlight =
          (completeAll w (sched.headD [])).inFlight := by
        rw [iteration_inFlight, if_pos h0]
      simp only [h0, not_true_eq_false, decide_False, Bool.false_eq_true, if_false]
      exact ih _ _ hrest (by rw [hinf]; exact hsub _ hnot)
    · simp only [h0, not_false_eq_true, decide_True, if_true, List.map_cons, List.mem_cons]
      by_cases hid : ck.ID = c0.ID
      · exact Or.inl hid
      · right
        have hrest : ck ∈ rest := by
          rcases List.mem_cons.1 hck with he | hr
          · exact absurd (by rw [he]) hid
          · exact hr
        have hinf : (iteration (completeAll w (sched.headD [])) c0).1.inFlight =
            (completeAll w (sched.headD [])).inFlight ++ [c0.ID] := by
          rw [iteration_inFlight, if_neg h0]
        apply ih _ _ hrest
        rw [hinf, List.mem_append, List.mem_singleton]
        rintro (h1 | h1)
        · exact hsub _ hnot h1
        · exact hid h1

theorem loopWith_nil (w : World) (checks : List Check) :
    loopWith w checks [] = loop w checks := by
  induction checks generalizing w with
  | nil => rfl
  | cons ck rest ih =>
    simp only [loopWith, loop, List.headD_nil, List.tail_nil, completeAll, List.foldl_nil]
    rw [ih]

theorem complete_setQueueSize (w : World) (id : Int) (o : Outcome) (q : Option Int) :
    complete { w with ChecksQueueSize := q } id o =
      { complete w id o with ChecksQueueSize := q } := by
  unfold complete
  simp only
  cases w.goroutines.find? (fun ck => ck.ID == id) <;> rfl

theorem completeAll_setQueueSize (w : World) (done : List (Int × Outcome)) (q : Option Int) :
    completeAll { w with ChecksQueueSize := q } done =
      { completeAll w done with ChecksQueueSize := q } := by
  induction done generalizing w with
  | nil => rfl
  | cons e rest ih =>
    simp only [completeAll, List.foldl_cons] at ih ⊢
    rw [complete_setQueueSize, ih]

theorem loopWith_setQueueSize (w : World) (checks : List Check)
    (sched : List (List (Int × Outcome))) (q : Option Int) :
    loopWith { w with ChecksQueueSize := q } checks sched =
      ({ (loopWith w checks sched).1 with ChecksQueueSize := q },
       (loopWith w checks sched).2) := by
  induction checks generalizing w sched with
  | nil => rfl
  | cons ck rest ih =>
    simp only [loopWith]
    rw [completeAll_setQueueSize, iteration_setQueueSize]
    simp only
    rw [ih]

theorem RunWith_ok (w : World) (checks : List Check) (sched : List (List (Int × Outcome))) :
    RunWith w (.ok checks) sched =
      { world := { (loopWith w checks sched).1 with
                   ChecksQueueSize := some (checks.length : Int) },
        err := none, launched := (loopWith w checks sched).2 } := by
  simp only [RunWith]
  rw [loopWith_setQueueSize]

theorem loopWith_append (w : World) (pre post : List Check)
    (sched : List (List (Int × Outcome))) :
    loopWith w (pre ++ post) sched =
      ((loopWith (loopWith w pre sched).1 post (sched.drop pre.length)).1,
       (loopWith w pre sched).2 ++
         (loopWith (loopWith w pre sched).1 post (sched.drop pre.length)).2) := by
  induction pre generalizing w sched with
  | nil => simp [loopWith]
  | cons ck rest ih =>
    have hdrop : sched.tail.drop rest.length = sched.drop (rest.length + 1) := by
      cases sched with
      | nil => simp
      | cons a as => rfl
    show loopWith w (ck :: (rest ++ post)) sched = _
    simp only [loopWith, List.length_cons]
    rw [ih, hdrop]
    cases (iteration (completeAll w (sched.headD [])) ck).2 <;> simp

theorem loopWith_no_completion (w : World) (checks : List Check)
    (sched : List (List (Int × Outcome))) (h : ∀ done ∈ sched, done = []) :
    loopWith w checks sched = loop w checks := by
  induction checks generalizing w sched with
  | nil => rfl
  | cons ck rest ih =>
    have hhead : sched.headD [] = [] := by
      cases sched with
      | nil => rfl
      | cons a as => exact h a (List.mem_cons_self _ _)
    have htail : ∀ done ∈ sched.tail, done = [] := by
      cases sched with
      | nil =>
        intro done hd
        cases hd
      | cons a as => exact fun done hd => h done (List.mem_cons_of_mem _ hd)
    simp only [loopWith, loop, hhead, completeAll, List.foldl_nil]
    rw [ih _ _ htail]

theorem filter_ID_length_le_one (l : List Check) (h : (l.map Check.ID).Nodup) (id : Int) :
    (l.filter (fun ck => decide (ck.ID = id))).length ≤ 1 := by
  induction l with
  | nil => simp
  | cons x rest ih =>
    rw [List.map_cons, List.nodup_cons] at h
    by_cases hx : x.ID = id
    · have hnone : rest.filter (fun ck => decide (ck.ID = id)) = [] := by
        apply List.filter_eq_nil_iff.2
        intro ck hck
        simp only [decide_eq_true_eq]
        intro hc
        exact h.1 (hx.trans hc.symm ▸ List.mem_map_of_mem _ hck)
      simp [List.filter, hx, hnone]
    · simp only [List.filter, hx, decide_False]
      exact ih h.2

/-! ## The dispatcher claims -/

/-- C1: in every state reachable from a fresh checker by dispatch cycles and
execution completions, in any interleaving, the running executions have
pairwise distinct check IDs and each of their IDs is marked in-flight; a
further cycle launches nothing for an ID that still has a running execution,
whatever the listing returns; and after any two consecutive cycles no check
ID has more than one running execution. -/
theorem C1_one_execution_per_check (w : World) (h : Reachable w) :
    (w.runningIDs.Nodup ∧ ∀ id ∈ w.runningIDs, id ∈ w.inFlight) ∧
    (∀ (checks : List Check), ∀ l ∈ (Run w (.ok checks)).launched,
      l.ID ∉ w.runningIDs) ∧
    (∀ (first second : Except Error (List Check)) (id : Int),
      ((Run (Run w first).world second).world.goroutines.filter
        (fun ck => decide (ck.ID = id))).length ≤ 1) := by
  have hinv := Reachable_Inv h
  refine ⟨hinv, ?_, ?_⟩
  · intro checks l hl hrun
    rw [Run_ok] at hl
    exact loop_launched_not_inFlight w checks l hl (hinv.2 _ hrun)
  · intro first second id
    have h2 := Run_Inv _ second (Run_Inv w first hinv)
    exact filter_ID_length_le_one _ h2.1 id

/-- Witness for C1: check 7 is listed in two consecutive cycles while its first
execution is still running. -/
theorem C1_one_execution_per_check_witness :
    Reachable (Run (Run World.init (.ok [⟨7, "main", "p", 3⟩])).world
        (.ok [⟨7, "main", "p", 3⟩])).world ∧
    (((Run (Run World.init (.ok [⟨7, "main", "p", 3⟩])).world
        (.ok [⟨7, "main", "p", 3⟩])).world.runningIDs.Nodup ∧
      ∀ id ∈ (Run (Run World.init (.ok [⟨7, "main", "p", 3⟩])).world
        (.ok [⟨7, "main", "p", 3⟩])).world.runningIDs,
        id ∈ (Run (Run World.init (.ok [⟨7, "main", "p", 3⟩])).world
          (.ok [⟨7, "main", "p", 3⟩])).world.inFlight) ∧
     ∀ (checks : List Check),
      ∀ l ∈ (Run (Run (Run World.init (.ok [⟨7, "main", "p", 3⟩])).world
          (.ok [⟨7, "main", "p", 3⟩])).world (.ok checks)).launched,
        l.ID ∉ (Run (Run World.init (.ok [⟨7, "main", "p", 3⟩])).world
          (.ok [⟨7, "main", "p", 3⟩])).world.runningIDs) :=
  ⟨Reachable.step (Reachable.step Reachable.init (Step.dispatch _ _)) (Step.dispatch _ _),
   (C1_one_execution_per_check _
    (Reachable.step (Reachable.step Reachable.init (Step.dispatch _ _))
      (Step.dispatch _ _))).1,
   (C1_one_execution_per_check _
    (Reachable.step (Reachable.step Reachable.init (Step.dispatch _ _))
      (Step.dispatch _ _))).2.1⟩

/-- C2, as stated, fails when an execution ends while the loop runs. On a fresh
checker the listing [7, 7], with the execution of 7 launched by the first
pass ending before the second pass, launches 7 twice, though 7 is a listed ID
that was not in-flight; and with 8 in-flight at the start of the cycle, the
listing [8], with the execution of 8 ending before its pass, launches 8,
though 8 was already in-flight. -/
theorem C2_counterexample :
    ((7 : Int) ∉ World.init.inFlight ∧
      ((RunWith World.init (.ok [⟨7, "main", "p", 3⟩, ⟨7, "main", "p", 3⟩])
          [[], [(7, Outcome.succeeded)]]).launched.map Check.ID).count 7 = 2) ∧
    ((8 : Int) ∈ World.inFlight { c := { running := [(8, true)] },
                                  goroutines := [⟨8, "main", "p", 1⟩],
                                  ChecksQueueSize := none } ∧
      (8 : Int) ∈ (RunWith { c := { running := [(8, true)] },
                             goroutines := [⟨8, "main", "p", 1⟩],
                             ChecksQueueSize := none }
          (.ok [⟨8, "main", "p", 1⟩]) [[(8, Outcome.errored)]]).launched.map Check.ID) := by
  decide

/-- C2, amended: in a cycle whose listing succeeds, the pass of the loop that
reaches a listed check launches it exactly when its ID is not in-flight at
that moment, also when executions end while the loop runs. When no execution
ends during the cycle, listed IDs that were in-flight are not launched, every
listed ID that was not in-flight is launched exactly once (however often it
is listed), the launched checks are added to the running executions, and the
in-flight set afterwards is the previous one plus all listed IDs. -/
theorem C2_launch_iff_not_in_flight (w : World) (checks : List Check) :
    (∀ (sched : List (List (Int × Outcome))) (pre : List Check) (ck : Check)
      (post : List Check), checks = pre ++ ck :: post →
      ((iteration (completeAll (loopWith w pre sched).1
          ((sched.drop pre.length).headD [])) ck).2 = true ↔
        ck.ID ∉ (completeAll (loopWith w pre sched).1
          ((sched.drop pre.length).headD [])).inFlight) ∧
      (RunWith w (.ok checks) sched).launched =
        (loopWith w pre sched).2 ++
          (if (iteration (completeAll (loopWith w pre sched).1
              ((sched.drop pre.length).headD [])) ck).2 then [ck] else []) ++
          (loopWith (iteration (completeAll (loopWith w pre sched).1
              ((sched.drop pre.length).headD [])) ck).1 post
            (sched.drop (pre.length + 1))).2) ∧
    (∀ sched : List (List (Int × Outcome)), (∀ done ∈ sched, done = []) →
      RunWith w (.ok checks) sched = Run w (.ok checks)) ∧
    (∀ (pre : List Check) (ck : Check) (post : List Check), checks = pre ++ ck :: post →
      ((iteration (loop w pre).1 ck).2 = true ↔ ck.ID ∉ (loop w pre).1.inFlight) ∧
      (Run w (.ok checks)).launched =
        (loop w pre).2 ++ (if (iteration (loop w pre).1 ck).2 then [ck] else []) ++
          (loop (iteration (loop w pre).1 ck).1 post).2) ∧
    (∀ ck ∈ checks, ck.ID ∈ w.inFlight →
      ck.ID ∉ (Run w (.ok checks)).launched.map Check.ID) ∧
    (∀ ck ∈ checks, ck.ID ∉ w.inFlight →
      ((Run w (.ok checks)).launched.map Check.ID).count ck.ID = 1) ∧
    (Run w (.ok checks)).launched.Sublist checks ∧
    (Run w (.ok checks)).world.goroutines = w.goroutines ++ (Run w (.ok checks)).launched ∧
    (∀ id, id ∈ (Run w (.ok checks)).world.inFlight ↔
      id ∈ w.inFlight ∨ id ∈ checks.map Check.ID) := by
  refine ⟨?_, ?_, ?_⟩
  · intro sched pre ck post hsplit
    refine ⟨?_, ?_⟩
    · rw [iteration_launched]
      simp
    · subst hsplit
      rw [RunWith_ok]
      simp only
      rw [loopWith_append]
      have hdrop : (sched.drop pre.length).tail = sched.drop (pre.length + 1) := by
        rw [← List.drop_one, List.drop_drop, Nat.add_comm]
      simp only [loopWith, hdrop]
      cases (iteration (completeAll (loopWith w pre sched).1
        ((sched.drop pre.length).headD [])) ck).2 <;> simp
  · intro sched hnone
    rw [RunWith_ok, Run_ok, loopWith_no_completion w checks sched hnone]
  · rw [Run_ok]
    refine ⟨?_, ?_, ?_, ?_, ?_, ?_⟩
    · intro pre ck post hsplit
      refine ⟨?_, ?_⟩
      · rw [iteration_launched]
        simp
      · subst hsplit
        simp only
        rw [loop_append]
        simp only [loop]
        cases (iteration (loop w pre).1 ck).2 <;> simp
    · intro ck _ hin hmem
      simp only at hmem
      have hc := loop_launched_count w checks ck.ID
      rw [if_neg (fun h => h.2 hin)] at hc
      exact (List.count_pos_iff.2 hmem).ne.symm hc
    · intro ck hck hnot
      simp only
      rw [loop_launched_count, if_pos ⟨List.mem_map_of_mem _ hck, hnot⟩]
    · exact loop_launched_sublist w checks
    · exact loop_goroutines w checks
    · intro id
      exact loop_mem_inFlight w checks id

/-- Witness for C2: check 7 is listed twice and check 8 is already in-flight;
with no execution ending during the cycle 7 is launched once and 8 is
skipped. -/
theorem C2_launch_iff_not_in_flight_witness :
    (((Run { c := { running := [(8, true)] }, goroutines := [⟨8, "main", "p", 1⟩],
             ChecksQueueSize := none }
        (.ok [⟨7, "main", "p", 3⟩, ⟨8, "main", "p", 1⟩, ⟨7, "main", "p", 3⟩])).launched.map
        Check.ID).count 7 = 1) ∧
    (8 ∉ (Run { c := { running := [(8, true)] }, goroutines := [⟨8, "main", "p", 1⟩],
                ChecksQueueSize := none }
        (.ok [⟨7, "main", "p", 3⟩, ⟨8, "main", "p", 1⟩, ⟨7, "main", "p", 3⟩])).launched.map
        Check.ID) ∧
    RunWith { c := { running := [(8, true)] }, goroutines := [⟨8, "main", "p", 1⟩],
              ChecksQueueSize := none }
        (.ok [⟨7, "main", "p", 3⟩, ⟨8, "main", "p", 1⟩, ⟨7, "main", "p", 3⟩]) [[], [], []] =
      Run { c := { running := [(8, true)] }, goroutines := [⟨8, "main", "p", 1⟩],
            ChecksQueueSize := none }
        (.ok [⟨7, "main", "p", 3⟩, ⟨8, "main", "p", 1⟩, ⟨7, "main", "p", 3⟩]) :=
  ⟨(C2_launch_iff_not_in_flight
      { c := { running := [(8, true)] }, goroutines := [⟨8, "main", "p", 1⟩],
        ChecksQueueSize := none }
      [⟨7, "main", "p", 3⟩, ⟨8, "main", "p", 1⟩, ⟨7, "main", "p", 3⟩]).2.2.2.2.1
      ⟨7, "main", "p", 3⟩ (by decide) (by decide),
   (C2_launch_iff_not_in_flight
      { c := { running := [(8, true)] }, goroutines := [⟨8, "main", "p", 1⟩],
        ChecksQueueSize := none }
      [⟨7, "main", "p", 3⟩, ⟨8, "main", "p", 1⟩, ⟨7, "main", "p", 3⟩]).2.2.2.1
      ⟨8, "main", "p", 1⟩ (by decide) (by decide),
   (C2_launch_iff_not_in_flight
      { c := { running := [(8, true)] }, goroutines := [⟨8, "main", "p", 1⟩],
        ChecksQueueSize := none }
      [⟨7, "main", "p", 3⟩, ⟨8, "main", "p", 1⟩, ⟨7, "main", "p", 3⟩]).2.1
      [[], [], []] (by decide)⟩

/-- C3: when the listing fails, `Run` returns that very error, launches nothing
and leaves the state (the in-flight set included) as it was; and `Run` returns
an error only when the listing returned it. -/
theorem C3_listing_error_is_returned (w : World) (err : Error) :
    (Run w (.error err)).err = some err ∧
    (Run w (.error err)).launched = [] ∧
    (Run w (.error err)).world = w ∧
    (Run w (.error err)).world.inFlight = w.inFlight ∧
    ∀ (StartedChecks : Except Error (List Check)) (e : Error),
      (Run w StartedChecks).err = some e ↔ StartedChecks = .error e := by
  refine ⟨rfl, rfl, rfl, rfl, ?_⟩
  intro listing e
  cases listing with
  | error e2 => simp [Run]
  | ok checks => simp [Run]

/-- C4: when an execution finishes, with whatever outcome, its check ID leaves
the in-flight set, every other ID stays as it was, the resulting state does not
depend on the outcome, and a following cycle whose listing contains the ID
launches an execution for it. -/
theorem C4_completion_clears_mark (w : World) (check : Check) (outcome : Outcome) :
    check.ID ∉ (finish w check outcome).inFlight ∧
    (∀ id, id ≠ check.ID → (id ∈ (finish w check outcome).inFlight ↔ id ∈ w.inFlight)) ∧
    (∀ other : Outcome, finish w check outcome = finish w check other) ∧
    (∀ (checks : List Check) (ck : Check), ck ∈ checks → ck.ID = check.ID →
      ∃ l ∈ (Run (finish w check outcome) (.ok checks)).launched, l.ID = check.ID) := by
  refine ⟨?_, ?_, ?_, ?_⟩
  · rw [finish_inFlight]
    exact fun h => h.2 rfl
  · intro id hne
    rw [finish_inFlight]
    exact ⟨fun h => h.1, fun h => ⟨h, hne⟩⟩
  · intro other
    rfl
  · intro checks ck hck hid
    rw [Run_ok]
    simp only
    have hnot : ck.ID ∉ (finish w check outcome).inFlight := by
      rw [finish_inFlight, hid]
      exact fun h => h.2 rfl
    have hc := loop_launched_count (finish w check outcome) checks ck.ID
    rw [if_pos ⟨List.mem_map_of_mem _ hck, hnot⟩] at hc
    have hmem : ck.ID ∈ (loop (finish w check outcome) checks).2.map Check.ID :=
      List.count_pos_iff.1 (by omega)
    obtain ⟨l, hl, hlid⟩ := List.mem_map.1 hmem
    exact ⟨l, hl, hlid.trans hid⟩

/-- Witness for C4: the cancelled execution of check 7 finishes and the next
cycle, which lists 7 again, launches it. -/
theorem C4_completion_clears_mark_witness :
    ∃ l ∈ (Run (finish { c := { running := [(7, true)] },
                          goroutines := [⟨7, "main", "p", 3⟩], ChecksQueueSize := some 1 }
                  ⟨7, "main", "p", 3⟩ Outcome.cancelled)
            (.ok [⟨7, "main", "p", 3⟩])).launched, l.ID = 7 :=
  (C4_completion_clears_mark
      { c := { running := [(7, true)] }, goroutines := [⟨7, "main", "p", 3⟩],
        ChecksQueueSize := some 1 }
      ⟨7, "main", "p", 3⟩ Outcome.cancelled).2.2.2
    [⟨7, "main", "p", 3⟩] ⟨7, "main", "p", 3⟩ (by decide) rfl

/-- C5: a cycle whose listing succeeds sets the queue-size gauge to the number
of listed checks, also when every one of them is already in-flight and nothing
is launched; a cycle whose listing fails leaves the gauge as it was. -/
theorem C5_queue_size_is_listing_length (w : World) (checks : List Check) (err : Error) :
    (Run w (.ok checks)).world.ChecksQueueSize = some (checks.length : Int) ∧
    ((∀ ck ∈ checks, ck.ID ∈ w.inFlight) →
      (Run w (.ok checks)).launched = [] ∧
      (Run w (.ok checks)).world.ChecksQueueSize = some (checks.length : Int)) ∧
    (Run w (.error err)).world.ChecksQueueSize = w.ChecksQueueSize := by
  have h1 : (Run w (.ok checks)).world.ChecksQueueSize = some (checks.length : Int) := by
    rw [Run_ok]
  refine ⟨h1, ?_, rfl⟩
  intro hall
  refine ⟨?_, h1⟩
  rw [Run_ok]
  simp only
  apply List.eq_nil_iff_forall_not_mem.2
  intro l hl
  have hsub := (loop_launched_sublist w checks).subset hl
  exact loop_launched_not_inFlight w checks l hl (hall l hsub)

/-- Witness for C5: two checks are listed, both already in-flight; nothing is
launched and the gauge reads 2. -/
theorem C5_queue_size_is_listing_length_witness :
    (Run { c := { running := [(7, true), (8, true)] },
           goroutines := [⟨7, "main", "p", 3⟩, ⟨8, "main", "p", 1⟩],
           ChecksQueueSize := some 5 }
        (.ok [⟨7, "main", "p", 3⟩, ⟨8, "main", "p", 1⟩])).launched = [] ∧
    (Run { c := { running := [(7, true), (8, true)] },
           goroutines := [⟨7, "main", "p", 3⟩, ⟨8, "main", "p", 1⟩],
           ChecksQueueSize := some 5 }
        (.ok [⟨7, "main", "p", 3⟩, ⟨8, "main", "p", 1⟩])).world.ChecksQueueSize =
      some ((2 : Nat) : Int) :=
  (C5_queue_size_is_listing_length
      { c := { running := [(7, true), (8, true)] },
        goroutines := [⟨7, "main", "p", 3⟩, ⟨8, "main", "p", 1⟩],
        ChecksQueueSize := some 5 }
      [⟨7, "main", "p", 3⟩, ⟨8, "main", "p", 1⟩] "unused").2.1 (by decide)

/-- C6: when the listing succeeds, `Run` returns no error and launches every
listed check whose ID was not in-flight, also when executions (of this batch or
of earlier ones) finish while the loop runs; and neither the state it leaves
nor the checks it launches depend on how any of those executions ended. -/
theorem C6_run_ignores_execution_outcomes (w : World) (checks : List Check)
    (sched sched2 : List (List (Int × Outcome)))
    (hsame : sched.map (fun l => l.map Prod.fst) = sched2.map (fun l => l.map Prod.fst)) :
    RunWith w (.ok checks) sched = RunWith w (.ok checks) sched2 ∧
    (RunWith w (.ok checks) sched).err = none ∧
    (∀ ck ∈ checks, ck.ID ∉ w.inFlight →
      ck.ID ∈ (RunWith w (.ok checks) sched).launched.map Check.ID) ∧
    RunWith w (.ok checks) [] = Run w (.ok checks) ∧
    (Run w (.ok checks)).err = none ∧
    (∀ ck ∈ checks, ck.ID ∉ w.inFlight →
      ck.ID ∈ (Run w (.ok checks)).launched.map Check.ID) := by
  have hnil : RunWith w (.ok checks) [] = Run w (.ok checks) := by
    simp only [RunWith, Run]
    rw [loopWith_nil]
  refine ⟨?_, rfl, ?_, hnil, rfl, ?_⟩
  · simp only [RunWith]
    rw [loopWith_congr _ checks sched sched2 hsame]
  · intro ck hck hnot
    exact loopWith_launches _ checks sched ck hck hnot
  · intro ck hck hnot
    rw [← hnil]
    exact loopWith_launches _ checks [] ck hck hnot

/-- Witness for C6: check 7 is launched and its execution ends (with an error
in one run, with success in the other) before the loop reaches check 8. -/
theorem C6_run_ignores_execution_outcomes_witness :
    ([[], [((7 : Int), Outcome.errored)]].map (fun l => l.map Prod.fst) =
      [[], [((7 : Int), Outcome.succeeded)]].map (fun l => l.map Prod.fst)) ∧
    RunWith World.init (.ok [⟨7, "main", "p", 3⟩, ⟨8, "main", "p", 1⟩])
        [[], [(7, Outcome.errored)]] =
      RunWith World.init (.ok [⟨7, "main", "p", 3⟩, ⟨8, "main", "p", 1⟩])
        [[], [(7, Outcome.succeeded)]] ∧
    (RunWith World.init (.ok [⟨7, "main", "p", 3⟩, ⟨8, "main", "p", 1⟩])
        [[], [(7, Outcome.errored)]]).err = none ∧
    (8 : Int) ∈ (RunWith World.init (.ok [⟨7, "main", "p", 3⟩, ⟨8, "main", "p", 1⟩])
        [[], [(7, Outcome.errored)]]).launched.map Check.ID :=
  ⟨rfl,
   (C6_run_ignores_execution_outcomes World.init
      [⟨7, "main", "p", 3⟩, ⟨8, "main", "p", 1⟩]
      [[], [(7, Outcome.errored)]] [[], [(7, Outcome.succeeded)]] rfl).1,
   rfl, by decide⟩

end Lidar

namespace Db

/-! ## Lemmas on check orders -/

theorem foldr_max_le_of_forall (l : List Nat) (b : Nat) (h : ∀ x ∈ l, x ≤ b) :
    l.foldr max 0 ≤ b := by
  induction l with
  | nil => simp
  | cons x rest ih =>
    simp only [List.foldr_cons]
    exact max_le (h x (List.mem_cons_self _ _))
      (ih (fun y hy => h y (List.mem_cons_of_mem _ hy)))

theorem le_foldr_max (l : List Nat) (x : Nat) (h : x ∈ l) : x ≤ l.foldr max 0 := by
  induction l with
  | nil => cases h
  | cons y rest ih =>
    simp only [List.foldr_cons]
    rcases List.mem_cons.1 h with he | hr
    · rw [he]
      exact le_max_left _ _
    · exact le_trans (ih hr) (le_max_right _ _)

theorem le_maxCheckOrder (versions : List ResourceVersion) (space : Space)
    (r : ResourceVersion) (hr : r ∈ versions) (hs : r.space = space) :
    r.checkOrder ≤ maxCheckOrder versions space := by
  unfold maxCheckOrder
  apply le_foldr_max
  apply List.mem_map_of_mem
  rw [List.mem_filter]
  exact ⟨hr, by simpa using hs⟩

theorem maxCheckOrder_le (versions : List ResourceVersion) (space : Space) (b : Nat)
    (h : ∀ r ∈ versions, r.space = space → r.checkOrder ≤ b) :
    maxCheckOrder versions space ≤ b := by
  unfold maxCheckOrder
  apply foldr_max_le_of_forall
  intro x hx
  obtain ⟨r, hr, rfl⟩ := List.mem_map.1 hx
  rw [List.mem_filter] at hr
  exact h r hr.1 (by simpa using hr.2)

theorem assignOrder_snd (versions : List ResourceVersion) (p : SpaceVersion) :
    (assignOrder versions p).2 = maxCheckOrder versions p.Space + 1 := by
  unfold assignOrder
  simp only
  split <;> rfl

theorem assignOrder_keys (versions : List ResourceVersion) (p : SpaceVersion) :
    (assignOrder versions p).1.map ResourceVersion.key =
      if (p.Space, p.Version) ∈ versions.map ResourceVersion.key
      then versions.map ResourceVersion.key
      else versions.map ResourceVersion.key ++ [(p.Space, p.Version)] := by
  unfold assignOrder
  simp only
  by_cases hm : (p.Space, p.Version) ∈ versions.map ResourceVersion.key
  · rw [if_pos hm, if_pos hm]
    simp only [List.map_map]
    apply List.map_congr_left
    intro r _
    simp only [Function.comp]
    split <;> rfl
  · rw [if_neg hm, if_neg hm]
    simp [ResourceVersion.key]

theorem mem_assignOrder (versions : List ResourceVersion) (p : SpaceVersion)
    (r2 : ResourceVersion) (h : r2 ∈ (assignOrder versions p).1) :
    (∃ r ∈ versions, r.key ≠ (p.Space, p.Version) ∧ r2 = r) ∨
    (r2.key = (p.Space, p.Version) ∧ r2.checkOrder = maxCheckOrder versions p.Space + 1) := by
  unfold assignOrder at h
  simp only at h
  by_cases hm : (p.Space, p.Version) ∈ versions.map ResourceVersion.key
  · rw [if_pos hm] at h
    obtain ⟨r, hr, hr2⟩ := List.mem_map.1 h
    by_cases hk : r.key = (p.Space, p.Version)
    · rw [if_pos hk] at hr2
      right
      subst hr2
      exact ⟨hk, rfl⟩
    · rw [if_neg hk] at hr2
      left
      exact ⟨r, hr, hk, hr2.symm⟩
  · rw [if_neg hm] at h
    rcases List.mem_append.1 h with h1 | h1
    · left
      refine ⟨r2, h1, ?_, rfl⟩
      intro hk
      exact hm (hk ▸ List.mem_map_of_mem _ h1)
    · right
      rw [List.mem_singleton] at h1
      subst h1
      exact ⟨rfl, rfl⟩

theorem assignOrder_self (versions : List ResourceVersion) (p : SpaceVersion) :
    ∃ r ∈ (assignOrder versions p).1, r.key = (p.Space, p.Version) ∧
      r.checkOrder = maxCheckOrder versions p.Space + 1 := by
  unfold assignOrder
  simp only
  by_cases hm : (p.Space, p.Version) ∈ versions.map ResourceVersion.key
  · rw [if_pos hm]
    obtain ⟨r, hr, hk⟩ := List.mem_map.1 hm
    refine ⟨{ r with checkOrder := maxCheckOrder versions p.Space + 1 }, ?_, hk, rfl⟩
    apply List.mem_map.2
    exact ⟨r, hr, by rw [if_pos hk]⟩
  · rw [if_neg hm]
    exact ⟨_, List.mem_append_right _ (List.mem_singleton_self _), rfl, rfl⟩

theorem assignOrder_keeps (versions : List ResourceVersion) (p : SpaceVersion)
    (r : ResourceVersion) (hr : r ∈ versions) :
    ∃ r2 ∈ (assignOrder versions p).1, r2.key = r.key ∧ r.checkOrder ≤ r2.checkOrder := by
  by_cases hk : r.key = (p.Space, p.Version)
  · obtain ⟨r2, hr2, hk2, ho⟩ := assignOrder_self versions p
    refine ⟨r2, hr2, hk2.trans hk.symm, ?_⟩
    rw [ho]
    have hs : r.space = p.Space := congrArg Prod.fst hk
    exact Nat.le_succ_of_le (le_maxCheckOrder versions p.Space r hr hs)
  · refine ⟨r, ?_, rfl, le_refl _⟩
    unfold assignOrder
    simp only
    split
    · apply List.mem_map.2
      exact ⟨r, hr, by rw [if_neg hk]⟩
    · exact List.mem_append_left _ hr

theorem assignOrder_max (versions : List ResourceVersion) (p : SpaceVersion) :
    maxCheckOrder (assignOrder versions p).1 p.Space = maxCheckOrder versions p.Space + 1 := by
  apply le_antisymm
  · apply maxCheckOrder_le
    intro r2 hr2 hs
    rcases mem_assignOrder versions p r2 hr2 with ⟨r, hr, _, rfl⟩ | ⟨_, ho⟩
    · exact Nat.le_succ_of_le (le_maxCheckOrder versions p.Space r2 hr hs)
    · exact ho.le
  · obtain ⟨r, hr, hk, ho⟩ := assignOrder_self versions p
    rw [← ho]
    exact le_maxCheckOrder _ _ r hr (congrArg Prod.fst hk)

theorem assignOrder_max_other (versions : List ResourceVersion) (p : SpaceVersion)
    (space : Space) (hne : space ≠ p.Space) :
    maxCheckOrder (assignOrder versions p).1 space = maxCheckOrder versions space := by
  apply le_antisymm
  · apply maxCheckOrder_le
    intro r2 hr2 hs
    rcases mem_assignOrder versions p r2 hr2 with ⟨r, hr, _, rfl⟩ | ⟨hk, _⟩
    · exact le_maxCheckOrder versions space r2 hr hs
    · exact absurd (hs.symm.trans (congrArg Prod.fst hk)) hne
  · apply maxCheckOrder_le
    intro r hr hs
    obtain ⟨r2, hr2, hk2, hle⟩ := assignOrder_keeps versions p r hr
    have hs2 : r2.space = space := (congrArg Prod.fst hk2).trans hs
    exact le_trans hle (le_maxCheckOrder _ _ r2 hr2 hs2)

theorem RowsWF_nil : RowsWF [] := by
  simp [RowsWF]

theorem assignOrder_RowsWF (versions : List ResourceVersion) (p : SpaceVersion)
    (h : RowsWF versions) : RowsWF (assignOrder versions p).1 := by
  obtain ⟨hk, ho⟩ := h
  refine ⟨?_, ?_⟩
  · rw [assignOrder_keys]
    split
    · exact hk
    · rename_i hm
      exact List.Nodup.append hk (List.nodup_singleton _)
        (by
          intro a ha hb
          rw [List.mem_singleton] at hb
          exact hm (hb ▸ ha))
  · unfold assignOrder
    simp only
    by_cases hm : (p.Space, p.Version) ∈ versions.map ResourceVersion.key
    · rw [if_pos hm]
      simp only [List.map_map]
      apply List.Nodup.map_on _ (List.Nodup.of_map _ hk)
      intro x hx y hy hxy
      simp only [Function.comp] at hxy
      by_cases hxk : x.key = (p.Space, p.Version)
      · by_cases hyk : y.key = (p.Space, p.Version)
        · exact List.inj_on_of_nodup_map hk hx hy (hxk.trans hyk.symm)
        · rw [if_pos hxk, if_neg hyk] at hxy
          simp only [Prod.mk.injEq] at hxy
          have hle := le_maxCheckOrder versions p.Space y hy
            (hxy.1.symm.trans (congrArg Prod.fst hxk))
          omega
      · by_cases hyk : y.key = (p.Space, p.Version)
        · rw [if_neg hxk, if_pos hyk] at hxy
          simp only [Prod.mk.injEq] at hxy
          have hle := le_maxCheckOrder versions p.Space x hx
            (hxy.1.trans (congrArg Prod.fst hyk))
          omega
        · rw [if_neg hxk, if_neg hyk] at hxy
          exact List.inj_on_of_nodup_map ho hx hy hxy
    · rw [if_neg hm]
      rw [List.map_append, List.map_singleton]
      apply List.Nodup.append ho (List.nodup_singleton _)
      intro a ha hb
      rw [List.mem_singleton] at hb
      subst hb
      obtain ⟨r, hr, hra⟩ := List.mem_map.1 ha
      simp only [Prod.mk.injEq] at hra
      have hle := le_maxCheckOrder versions p.Space r hr hra.1
      omega

/-! ## Lemmas on the commit of a batch -/

theorem commit_RowsWF (versions : List ResourceVersion) (pending : List SpaceVersion)
    (h : RowsWF versions) : RowsWF (commit versions pending).1 := by
  induction pending generalizing versions with
  | nil => exact h
  | cons p rest ih =>
    simp only [commit]
    exact ih _ (assignOrder_RowsWF versions p h)

theorem commit_length (versions : List ResourceVersion) (pending : List SpaceVersion) :
    (commit versions pending).2.length = pending.length := by
  induction pending generalizing versions with
  | nil => rfl
  | cons p rest ih =>
    simp only [commit, List.length_cons]
    rw [ih]

theorem commit_append (versions : List ResourceVersion) (p1 p2 : List SpaceVersion) :
    commit versions (p1 ++ p2) =
      ((commit (commit versions p1).1 p2).1,
       (commit versions p1).2 ++ (commit (commit versions p1).1 p2).2) := by
  induction p1 generalizing versions with
  | nil => simp [commit]
  | cons p rest ih =>
    show commit versions (p :: (rest ++ p2)) = _
    simp only [commit]
    rw [ih]
    simp

theorem commit_assigned (versions : List ResourceVersion) (pending : List SpaceVersion)
    (space : Space) (hs : ∀ p ∈ pending, p.Space = space) :
    (commit versions pending).2 =
        List.range' (maxCheckOrder versions space + 1) pending.length ∧
    maxCheckOrder (commit versions pending).1 space =
        maxCheckOrder versions space + pending.length := by
  induction pending generalizing versions with
  | nil => simp [commit]
  | cons p rest ih =>
    have hp : p.Space = space := hs p (List.mem_cons_self _ _)
    have hrest := ih (assignOrder versions p).1
      (fun q hq => hs q (List.mem_cons_of_mem _ hq))
    have hmax : maxCheckOrder (assignOrder versions p).1 space =
        maxCheckOrder versions space + 1 := by
      rw [← hp]
      exact assignOrder_max versions p
    simp only [commit, List.length_cons]
    rw [hrest.1, hrest.2, hmax, assignOrder_snd, hp, List.range'_succ]
    exact ⟨rfl, by omega⟩

theorem commit_keeps (versions : List ResourceVersion) (pending : List SpaceVersion)
    (r : ResourceVersion) (hr : r ∈ versions) :
    ∃ r2 ∈ (commit versions pending).1, r2.key = r.key ∧ r.checkOrder ≤ r2.checkOrder := by
  induction pending generalizing versions r with
  | nil => exact ⟨r, hr, rfl, le_refl _⟩
  | cons p rest ih =>
    simp only [commit]
    obtain ⟨r1, hr1, hk1, hle1⟩ := assignOrder_keeps versions p r hr
    obtain ⟨r2, hr2, hk2, hle2⟩ := ih _ r1 hr1
    exact ⟨r2, hr2, hk2.trans hk1, le_trans hle1 hle2⟩

theorem commit_reported (versions : List ResourceVersion) (pending : List SpaceVersion)
    (p : SpaceVersion) (hp : p ∈ pending) :
    ∃ r ∈ (commit versions pending).1, r.key = (p.Space, p.Version) ∧
      maxCheckOrder versions p.Space < r.checkOrder := by
  induction pending generalizing versions with
  | nil => cases hp
  | cons q rest ih =>
    simp only [commit]
    rcases List.mem_cons.1 hp with he | hr
    · subst he
      obtain ⟨r1, hr1, hk1, ho1⟩ := assignOrder_self versions p
      obtain ⟨r2, hr2, hk2, hle2⟩ := commit_keeps _ rest r1 hr1
      exact ⟨r2, hr2, hk2.trans hk1, by omega⟩
    · obtain ⟨r, hr1, hk, hlt⟩ := ih (assignOrder versions q).1 hr
      refine ⟨r, hr1, hk, lt_of_le_of_lt ?_ hlt⟩
      by_cases hsp : p.Space = q.Space
      · rw [hsp, assignOrder_max]
        exact Nat.le_succ _
      · rw [assignOrder_max_other versions q p.Space hsp]

theorem commit_keys (versions : List ResourceVersion) (pending : List SpaceVersion)
    (k : Space × Version) :
    k ∈ (commit versions pending).1.map ResourceVersion.key ↔
      k ∈ versions.map ResourceVersion.key ∨
      k ∈ pending.map (fun p => (p.Space, p.Version)) := by
  induction pending generalizing versions with
  | nil => simp [commit]
  | cons p rest ih =>
    simp only [commit]
    rw [ih, assignOrder_keys]
    by_cases hm : (p.Space, p.Version) ∈ versions.map ResourceVersion.key
    · rw [if_pos hm]
      simp only [List.map_cons, List.mem_cons]
      constructor
      · rintro (h | h)
        · exact Or.inl h
        · exact Or.inr (Or.inr h)
      · rintro (h | h | h)
        · exact Or.inl h
        · exact Or.inl (h ▸ hm)
        · exact Or.inr h
    · rw [if_neg hm]
      simp only [List.map_cons, List.mem_cons, List.mem_append, List.mem_singleton]
      tauto

theorem commit_orders (versions : List ResourceVersion) (pending : List SpaceVersion)
    (r2 : ResourceVersion) (h : r2 ∈ (commit versions pending).1) :
    r2 ∈ versions ∨ r2.checkOrder ∈ (commit versions pending).2 := by
  induction pending generalizing versions with
  | nil => exact Or.inl h
  | cons p rest ih =>
    simp only [commit] at h ⊢
    rcases ih _ h with h1 | h1
    · rcases mem_assignOrder versions p r2 h1 with ⟨r, hr, _, rfl⟩ | ⟨_, ho⟩
      · exact Or.inl hr
      · right
        rw [assignOrder_snd, ho]
        exact List.mem_cons_self _ _
    · exact Or.inr (List.mem_cons_of_mem _ h1)

theorem commit_keys_of_stored (versions : List ResourceVersion) (pending : List SpaceVersion)
    (h : ∀ p ∈ pending, (p.Space, p.Version) ∈ versions.map ResourceVersion.key) :
    (commit versions pending).1.map ResourceVersion.key = versions.map ResourceVersion.key := by
  induction pending generalizing versions with
  | nil => rfl
  | cons p rest ih =>
    have hp := h p (List.mem_cons_self _ _)
    have hk : (assignOrder versions p).1.map ResourceVersion.key =
        versions.map ResourceVersion.key := by
      rw [assignOrder_keys, if_pos hp]
    simp only [commit]
    rw [ih (assignOrder versions p).1
      (fun q hq => hk ▸ h q (List.mem_cons_of_mem _ hq)), hk]

theorem find?_key_of_mem (versions : List ResourceVersion)
    (hk : (versions.map ResourceVersion.key).Nodup) (r : ResourceVersion)
    (hr : r ∈ versions) :
    versions.find? (fun x => decide (x.key = r.key)) = some r := by
  induction versions with
  | nil => cases hr
  | cons x rest ih =>
    rw [List.map_cons, List.nodup_cons] at hk
    by_cases hx : x.key = r.key
    · have hxr : x = r := by
        rcases List.mem_cons.1 hr with he | hin
        · exact he.symm
        · exact absurd (hx ▸ List.mem_map_of_mem _ hin) hk.1
      simp [List.find?, hx, hxr]
    · have hin : r ∈ rest := by
        rcases List.mem_cons.1 hr with he | hin
        · exact absurd (by rw [he]) hx
        · exact hin
      simp only [List.find?, hx, decide_False]
      exact ih hk.2 hin

theorem filter_key_length_zero (versions : List ResourceVersion) (k : Space × Version)
    (hm : k ∉ versions.map ResourceVersion.key) :
    (versions.filter (fun r => decide (r.key = k))).length = 0 := by
  induction versions with
  | nil => rfl
  | cons x rest ih =>
    rw [List.map_cons, List.mem_cons, not_or] at hm
    have hx : ¬ x.key = k := fun h => hm.1 h.symm
    simp only [List.filter, hx, decide_False]
    exact ih hm.2

theorem filter_key_length_one (versions : List ResourceVersion)
    (hk : (versions.map ResourceVersion.key).Nodup) (k : Space × Version)
    (hm : k ∈ versions.map ResourceVersion.key) :
    (versions.filter (fun r => decide (r.key = k))).length = 1 := by
  induction versions with
  | nil => cases hm
  | cons x rest ih =>
    rw [List.map_cons, List.nodup_cons] at hk
    by_cases hx : x.key = k
    · simp only [List.filter, hx, decide_True, List.length_cons]
      rw [filter_key_length_zero rest k (hx ▸ hk.1)]
    · simp only [List.filter, hx, decide_False]
      apply ih hk.2
      rcases List.mem_cons.1 hm with h1 | h1
      · exact absurd h1.symm hx
      · exact h1

/-! ## Lemmas on the operations and on `saveVersions` -/

theorem mem_SaveSpace_spaceNames (rc : ResourceConfig) (space n : Space) :
    n ∈ (SaveSpace rc space).1.spaceNames ↔ n ∈ rc.spaceNames ∨ n = space := by
  unfold SaveSpace
  by_cases h : space ∈ rc.spaceNames
  · rw [if_pos h]
    constructor
    · exact Or.inl
    · rintro (h1 | h1)
      · exact h1
      · exact h1 ▸ h
  · rw [if_neg h]
    simp [ResourceConfig.spaceNames]

theorem SaveSpace_frame (rc : ResourceConfig) (space : Space) :
    (SaveSpace rc space).2 = none ∧
    (SaveSpace rc space).1.versions = rc.versions ∧
    (SaveSpace rc space).1.pending = rc.pending := by
  unfold SaveSpace
  split <;> exact ⟨rfl, rfl, rfl⟩

theorem SaveSpaceLatestVersion_frame (rc : ResourceConfig) (space : Space)
    (version : Version) :
    (SaveSpaceLatestVersion rc space version).1.spaceNames = rc.spaceNames ∧
    (SaveSpaceLatestVersion rc space version).1.versions = rc.versions ∧
    (SaveSpaceLatestVersion rc space version).1.pending = rc.pending := by
  unfold SaveSpaceLatestVersion
  split
  · refine ⟨?_, rfl, rfl⟩
    simp only [ResourceConfig.spaceNames, List.map_map]
    apply List.map_congr_left
    intro sp _
    simp only [Function.comp]
    split <;> rfl
  · exact ⟨rfl, rfl, rfl⟩

theorem saveVersionsLoop_spec (rc : ResourceConfig) (versions : List SpaceVersion) :
    ∃ rc1, saveVersionsLoop rc versions = some rc1 ∧
      rc1.versions = rc.versions ∧ rc1.pending = rc.pending ++ versions := by
  induction versions generalizing rc with
  | nil => exact ⟨rc, rfl, rfl, by simp⟩
  | cons v rest ih =>
    obtain ⟨herr, hvers, hpend⟩ := SaveSpace_frame rc v.Space
    have hreg : v.Space ∈ (SaveSpace rc v.Space).1.spaceNames :=
      (mem_SaveSpace_spaceNames rc v.Space v.Space).2 (Or.inr rfl)
    rcases hss : SaveSpace rc v.Space with ⟨rcA, e⟩
    rw [hss] at herr hvers hpend hreg
    simp only at herr hvers hpend hreg
    subst herr
    have hsp : SavePartialVersion rcA v.Space v.Version v.Metadata =
        ({ rcA with pending := rcA.pending ++ [v] }, none) := by
      unfold SavePartialVersion
      rw [if_pos hreg]
    obtain ⟨rc1, h1, h2, h3⟩ := ih { rcA with pending := rcA.pending ++ [v] }
    refine ⟨rc1, ?_, ?_, ?_⟩
    · simp only [saveVersionsLoop, hss, hsp]
      exact h1
    · rw [h2]
      exact hvers
    · rw [h3]
      simp only [hpend, List.append_assoc, List.singleton_append]

theorem saveVersions_spec (rc : ResourceConfig) (versions : List SpaceVersion) :
    ∃ rc1 rc2, saveVersionsLoop rc versions = some rc1 ∧
      saveVersions rc versions = some rc2 ∧
      rc1.versions = rc.versions ∧ rc1.pending = rc.pending ++ versions ∧
      rc2.versions = (commit rc.versions (rc.pending ++ versions)).1 ∧
      rc2.pending = [] := by
  obtain ⟨rc1, h1, h2, h3⟩ := saveVersionsLoop_spec rc versions
  refine ⟨rc1, (FinishSavingVersions rc1).1, h1, ?_, h2, h3, ?_, rfl⟩
  · simp only [saveVersions, h1, FinishSavingVersions]
  · simp only [FinishSavingVersions, h2, h3]

theorem inSpace_space (space : Space) (batch : List (Version × Metadata)) :
    ∀ p ∈ inSpace space batch, p.Space = space := by
  intro p hp
  obtain ⟨q, _, rfl⟩ := List.mem_map.1 hp
  rfl

theorem inSpace_length (space : Space) (batch : List (Version × Metadata)) :
    (inSpace space batch).length = batch.length := by
  simp [inSpace]

theorem saveBatches_spec (space : Space) (batches : List (List (Version × Metadata)))
    (rc : ResourceConfig) (hpend : rc.pending = []) :
    ∃ rc2 assigned, saveBatches rc (batches.map (inSpace space)) = some (rc2, assigned) ∧
      assigned.map List.length = batches.map List.length ∧
      assigned.flatten =
        List.range' (maxCheckOrder rc.versions space + 1) (batches.map List.length).sum ∧
      maxCheckOrder rc2.versions space =
        maxCheckOrder rc.versions space + (batches.map List.length).sum ∧
      rc2.pending = [] ∧
      (RowsWF rc.versions → RowsWF rc2.versions) ∧
      (∀ r ∈ rc2.versions, r ∈ rc.versions ∨ r.checkOrder ∈ assigned.flatten) := by
  induction batches generalizing rc with
  | nil => exact ⟨rc, [], rfl, rfl, by simp, by simp, hpend, id, fun r hr => Or.inl hr⟩
  | cons b rest ih =>
    obtain ⟨rc1, rcB, hl, hs, hv1, hp1, hvB, hpB⟩ := saveVersions_spec rc (inSpace space b)
    rw [hpend, List.nil_append] at hp1 hvB
    obtain ⟨rc2, assigned, hsb, hlen, hflat, hmax, hp2, hwf, hord⟩ := ih rcB hpB
    obtain ⟨hca, hcm⟩ := commit_assigned rc.versions (inSpace space b) space
      (inSpace_space space b)
    rw [inSpace_length] at hca hcm
    have hao : assignedOrders rc1 = List.range' (maxCheckOrder rc.versions space + 1) b.length := by
      unfold assignedOrders
      rw [hv1, hp1]
      exact hca
    have hmB : maxCheckOrder rcB.versions space =
        maxCheckOrder rc.versions space + b.length := by
      rw [hvB]
      exact hcm
    refine ⟨rc2, assignedOrders rc1 :: assigned, ?_, ?_, ?_, ?_, hp2, ?_, ?_⟩
    · simp only [List.map_cons, saveBatches, hl, hs, hsb]
    · simp only [List.map_cons, hlen, hao, List.length_range']
    · simp only [List.flatten_cons, List.map_cons, List.sum_cons, hflat, hao, hmB]
      have hadd : maxCheckOrder rc.versions space + b.length + 1 =
          maxCheckOrder rc.versions space + 1 + b.length := by omega
      rw [hadd, List.range'_append_1, Nat.add_comm b.length]
    · rw [hmax, hmB]
      simp only [List.map_cons, List.sum_cons]
      omega
    · intro h
      apply hwf
      rw [hvB]
      exact commit_RowsWF _ _ h
    · intro r hr
      rw [List.flatten_cons, List.mem_append]
      rcases hord r hr with h1 | h1
      · rw [hvB] at h1
        rcases commit_orders _ _ r h1 with h2 | h2
        · exact Or.inl h2
        · right
          left
          unfold assignedOrders
          rw [hv1, hp1]
          exact h2
      · exact Or.inr (Or.inr h1)

theorem Registered_init : Registered NewResourceConfig := by
  simp [Registered, NewResourceConfig]

theorem Op_apply_Registered (rc : ResourceConfig) (op : Op) (h : Registered rc) :
    Registered (op.apply rc) := by
  obtain ⟨hv, hp⟩ := h
  cases op with
  | saveSpace space =>
    obtain ⟨_, h2, h3⟩ := SaveSpace_frame rc space
    simp only [Op.apply, Registered, h2, h3]
    exact ⟨fun r hr => (mem_SaveSpace_spaceNames rc space _).2 (Or.inl (hv r hr)),
      fun p hq => (mem_SaveSpace_spaceNames rc space _).2 (Or.inl (hp p hq))⟩
  | savePartialVersion space version metadata =>
    simp only [Op.apply, SavePartialVersion]
    by_cases hreg : space ∈ rc.spaceNames
    · rw [if_pos hreg]
      refine ⟨hv, ?_⟩
      intro p hq
      rcases List.mem_append.1 hq with h1 | h1
      · exact hp p h1
      · rw [List.mem_singleton] at h1
        subst h1
        exact hreg
    · rw [if_neg hreg]
      exact ⟨hv, hp⟩
  | finishSavingVersions =>
    simp only [Op.apply, FinishSavingVersions]
    refine ⟨?_, fun p hq => by cases hq⟩
    intro r hr
    have hk : r.key ∈ (commit rc.versions rc.pending).1.map ResourceVersion.key :=
      List.mem_map_of_mem _ hr
    rcases (commit_keys rc.versions rc.pending r.key).1 hk with h1 | h1
    · obtain ⟨r0, hr0, hk0⟩ := List.mem_map.1 h1
      have hs : r0.space = r.space := congrArg Prod.fst hk0
      exact hs ▸ hv r0 hr0
    · obtain ⟨p, hq, hk0⟩ := List.mem_map.1 h1
      have hs : p.Space = r.space := congrArg Prod.fst hk0
      exact hs ▸ hp p hq
  | saveSpaceLatestVersion space version =>
    obtain ⟨h1, h2, h3⟩ := SaveSpaceLatestVersion_frame rc space version
    simp only [Op.apply, Registered, h1, h2, h3]
    exact ⟨hv, hp⟩

theorem foldl_Registered (ops : List Op) (rc : ResourceConfig) (h : Registered rc) :
    Registered (ops.foldl Op.apply rc) := by
  induction ops generalizing rc with
  | nil => exact h
  | cons op rest ih => exact ih _ (Op_apply_Registered rc op h)

theorem runOps_Registered (ops : List Op) : Registered (runOps ops) :=
  foldl_Registered ops _ Registered_init

/-! ## Which order goes to which reported version -/

theorem assignOrder_untouched (versions : List ResourceVersion) (p : SpaceVersion)
    (r : ResourceVersion) (hr : r ∈ versions) (hk : r.key ≠ (p.Space, p.Version)) :
    r ∈ (assignOrder versions p).1 := by
  unfold assignOrder
  simp only
  split
  · apply List.mem_map.2
    exact ⟨r, hr, by rw [if_neg hk]⟩
  · exact List.mem_append_left _ hr

theorem commit_untouched (versions : List ResourceVersion) (pending : List SpaceVersion)
    (r : ResourceVersion) (hr : r ∈ versions)
    (hk : r.key ∉ pending.map (fun p => (p.Space, p.Version))) :
    r ∈ (commit versions pending).1 := by
  induction pending generalizing versions with
  | nil => exact hr
  | cons p rest ih =>
    rw [List.map_cons, List.mem_cons, not_or] at hk
    simp only [commit]
    exact ih _ (assignOrder_untouched versions p r hr hk.1) hk.2

theorem commit_position (versions : List ResourceVersion) (space : Space)
    (pre post : List SpaceVersion) (p : SpaceVersion)
    (hpre : ∀ q ∈ pre, q.Space = space) (hp : p.Space = space)
    (hlast : (p.Space, p.Version) ∉ post.map (fun q => (q.Space, q.Version))) :
    ∃ r ∈ (commit versions (pre ++ p :: post)).1, r.key = (p.Space, p.Version) ∧
      r.checkOrder = maxCheckOrder versions space + pre.length + 1 := by
  rw [commit_append]
  simp only [commit]
  obtain ⟨r, hr, hk, ho⟩ := assignOrder_self (commit versions pre).1 p
  refine ⟨r, commit_untouched _ post r hr (hk ▸ hlast), hk, ?_⟩
  rw [ho, hp, (commit_assigned versions pre space hpre).2]

theorem inSpace_append (space : Space) (b1 b2 : List (Version × Metadata)) :
    inSpace space (b1 ++ b2) = inSpace space b1 ++ inSpace space b2 := by
  simp [inSpace]

theorem saveBatches_tie (space : Space) (batches : List (List (Version × Metadata)))
    (rc : ResourceConfig) (hpend : rc.pending = []) (hwf : RowsWF rc.versions)
    (rc2 : ResourceConfig) (assigned : List (List Nat))
    (hsb : saveBatches rc (batches.map (inSpace space)) = some (rc2, assigned))
    (history : List (List (Version × Metadata))) (batch : List (Version × Metadata))
    (later : List (List (Version × Metadata)))
    (hsplit : batches = history ++ batch :: later) :
    ∃ rcH aH rc1 a,
      saveBatches rc (history.map (inSpace space)) = some (rcH, aH) ∧
      saveVersions rcH (inSpace space batch) = some rc1 ∧
      assigned[history.length]? = some a ∧
      ∀ (pre : List (Version × Metadata)) (v : Version) (m : Metadata)
        (post : List (Version × Metadata)),
        batch = pre ++ (v, m) :: post → v ∉ post.map Prod.fst →
        ∃ r, FindVersion rc1 space v = (some r, none) ∧
          a[pre.length]? = some r.checkOrder ∧
          r.checkOrder =
            maxCheckOrder rc.versions space + (history.map List.length).sum +
              pre.length + 1 := by
  induction batches generalizing rc history assigned with
  | nil =>
    cases history <;> simp at hsplit
  | cons b rest ih =>
    obtain ⟨rcL, rcB, hl, hs, hv1, hp1, hvB, hpB⟩ := saveVersions_spec rc (inSpace space b)
    rw [hpend, List.nil_append] at hp1 hvB
    obtain ⟨hca, hcm⟩ := commit_assigned rc.versions (inSpace space b) space
      (inSpace_space space b)
    rw [inSpace_length] at hca hcm
    have hao : assignedOrders rcL =
        List.range' (maxCheckOrder rc.versions space + 1) b.length := by
      unfold assignedOrders
      rw [hv1, hp1]
      exact hca
    have hmB : maxCheckOrder rcB.versions space =
        maxCheckOrder rc.versions space + b.length := by
      rw [hvB]
      exact hcm
    have hwfB : RowsWF rcB.versions := by
      rw [hvB]
      exact commit_RowsWF _ _ hwf
    obtain ⟨rc3, asg, hrest, _⟩ := saveBatches_spec space rest rcB hpB
    have hfull : saveBatches rc ((b :: rest).map (inSpace space)) =
        some (rc3, assignedOrders rcL :: asg) := by
      simp only [List.map_cons, saveBatches, hl, hs, hrest]
    rw [hfull] at hsb
    simp only [Option.some.injEq, Prod.mk.injEq] at hsb
    obtain ⟨hrc, hasg⟩ := hsb
    subst hrc hasg
    cases history with
    | nil =>
      simp only [List.nil_append, List.cons.injEq] at hsplit
      obtain ⟨hb, _⟩ := hsplit
      subst hb
      refine ⟨rc, [], rcB, assignedOrders rcL, rfl, hs, by simp, ?_⟩
      intro pre v m post hbatch hnot
      have hlast : (space, v) ∉
          (inSpace space post).map (fun q => (q.Space, q.Version)) := by
        intro hc
        obtain ⟨q, hq, hkq⟩ := List.mem_map.1 hc
        obtain ⟨e, he, rfl⟩ := List.mem_map.1 hq
        simp only [Prod.mk.injEq, true_and] at hkq
        exact hnot (List.mem_map.2 ⟨e, he, hkq⟩)
      have hcp := commit_position rc.versions space (inSpace space pre) (inSpace space post)
        { Space := space, Version := v, Metadata := m } (inSpace_space space pre) rfl hlast
      obtain ⟨r, hr, hk, ho⟩ := hcp
      have heq : inSpace space pre ++
          ({ Space := space, Version := v, Metadata := m } : SpaceVersion) ::
            inSpace space post = inSpace space b := by
        rw [hbatch, inSpace_append]
        rfl
      rw [heq, ← hvB] at hr
      rw [inSpace_length] at ho
      simp only at hk
      refine ⟨r, ?_, ?_, ?_⟩
      · unfold FindVersion
        rw [← hk, find?_key_of_mem _ hwfB.1 r hr]
      · rw [hao, ho]
        have hlt : pre.length < b.length := by
          rw [hbatch, List.length_append, List.length_cons]
          omega
        rw [List.getElem?_range' _ _ hlt]
        congr 1
        omega
      · rw [ho]
        simp
    | cons h0 hs0 =>
      simp only [List.cons_append, List.cons.injEq] at hsplit
      obtain ⟨hb, hrestsplit⟩ := hsplit
      subst hb
      obtain ⟨rcH, aH, rc1, a, h1, h2, h3, h4⟩ :=
        ih rcB hpB hwfB asg hrest hs0 hrestsplit
      refine ⟨rcH, assignedOrders rcL :: aH, rc1, a, ?_, h2, ?_, ?_⟩
      · simp only [List.map_cons, saveBatches, hl, hs, h1]
      · simp only [List.length_cons, List.getElem?_cons_succ]
        exact h3
      · intro pre v m post hbatch hnot
        obtain ⟨r, hf, ha, ho⟩ := h4 pre v m post hbatch hnot
        refine ⟨r, hf, ha, ?_⟩
        rw [ho, hmB]
        simp only [List.map_cons, List.sum_cons]
        omega

/-! ## The version-store claims -/

/-- C7: for every sequence of commit batches saved with `saveVersions` into one
space of a new resource config, every operation succeeds, each batch is handed
one check order per reported version, the values are strictly increasing
within a batch in reporting order, every value of a batch is greater than
every value of an earlier batch (together they are 1, 2, 3, ...), every stored
check order is one of the values handed out, and no two versions of the space
share a check order. The values go to the versions in reporting order: right
after the commit of a batch, the version reported at a position of the batch
(and not again later in that batch) is found with the value handed out at
that position, which is the number of versions reported before it, in earlier
batches and in this one, plus one. The first batch [v1, v3] gives v1 order 1
and v3 order 2, and a first batch [v3, v1] gives v3 order 1 and v1 order 2. -/
theorem C7_check_order_strictly_increasing (space : Space)
    (batches : List (List (Version × Metadata))) :
    (∃ rc assigned,
      saveBatches NewResourceConfig (batches.map (inSpace space)) = some (rc, assigned) ∧
      assigned.map List.length = batches.map List.length ∧
      (∀ b ∈ assigned, b.Pairwise (fun x y => x < y)) ∧
      assigned.Pairwise (fun earlier later => ∀ x ∈ earlier, ∀ y ∈ later, x < y) ∧
      assigned.flatten = List.range' 1 (batches.map List.length).sum ∧
      (∀ r ∈ rc.versions, r.checkOrder ∈ assigned.flatten) ∧
      (∀ r1 ∈ rc.versions, ∀ r2 ∈ rc.versions, r1.space = space → r2.space = space →
        r1.checkOrder = r2.checkOrder → r1 = r2) ∧
      (rc.versions.map ResourceVersion.key).Nodup ∧
      (∀ (history : List (List (Version × Metadata))) (batch : List (Version × Metadata))
        (later : List (List (Version × Metadata))),
        batches = history ++ batch :: later →
        ∃ rcH aH rc1 a,
          saveBatches NewResourceConfig (history.map (inSpace space)) = some (rcH, aH) ∧
          saveVersions rcH (inSpace space batch) = some rc1 ∧
          assigned[history.length]? = some a ∧
          ∀ (pre : List (Version × Metadata)) (v : Version) (m : Metadata)
            (post : List (Version × Metadata)),
            batch = pre ++ (v, m) :: post → v ∉ post.map Prod.fst →
            ∃ r, FindVersion rc1 space v = (some r, none) ∧
              a[pre.length]? = some r.checkOrder ∧
              r.checkOrder = (history.map List.length).sum + pre.length + 1)) ∧
    saveBatches NewResourceConfig
        [inSpace "space" [([("ref", "v1")], []), ([("ref", "v3")], [])]] =
      some ({ spaces := [{ name := "space", latest := none }], defaultSpace := none,
              versions := [{ space := "space", version := [("ref", "v1")], metadata := [],
                             checkOrder := 1 },
                           { space := "space", version := [("ref", "v3")], metadata := [],
                             checkOrder := 2 }],
              pending := [] }, [[1, 2]]) ∧
    saveBatches NewResourceConfig
        [inSpace "space" [([("ref", "v3")], []), ([("ref", "v1")], [])]] =
      some ({ spaces := [{ name := "space", latest := none }], defaultSpace := none,
              versions := [{ space := "space", version := [("ref", "v3")], metadata := [],
                             checkOrder := 1 },
                           { space := "space", version := [("ref", "v1")], metadata := [],
                             checkOrder := 2 }],
              pending := [] }, [[1, 2]]) := by
  refine ⟨?_, by decide, by decide⟩
  obtain ⟨rc, assigned, hsb, hlen, hflat, _, _, hwf, hord⟩ :=
    saveBatches_spec space batches NewResourceConfig rfl
  have hmax0 : maxCheckOrder NewResourceConfig.versions space = 0 := rfl
  rw [hmax0] at hflat
  have hpw : assigned.flatten.Pairwise (fun x y => x < y) := by
    rw [hflat]
    exact List.pairwise_lt_range' _ _
  have hpw2 := List.pairwise_flatten.1 hpw
  obtain ⟨hk, ho⟩ := hwf RowsWF_nil
  refine ⟨rc, assigned, hsb, hlen, hpw2.1, hpw2.2, hflat, ?_, ?_, hk, ?_⟩
  · intro r hr
    rcases hord r hr with h1 | h1
    · cases h1
    · exact h1
  · intro r1 hr1 r2 hr2 hs1 hs2 hco
    apply List.inj_on_of_nodup_map ho hr1 hr2
    simp only [Prod.mk.injEq]
    exact ⟨hs1.trans hs2.symm, hco⟩
  · intro history batch later hsplit
    obtain ⟨rcH, aH, rc1, a, h1, h2, h3, h4⟩ :=
      saveBatches_tie space batches NewResourceConfig rfl RowsWF_nil rc assigned hsb
        history batch later hsplit
    refine ⟨rcH, aH, rc1, a, h1, h2, h3, ?_⟩
    intro pre v m post hbatch hnot
    obtain ⟨r, hf, ha, ho2⟩ := h4 pre v m post hbatch hnot
    refine ⟨r, hf, ha, ?_⟩
    rw [ho2, hmax0]
    omega

/-- Witness for C7: two batches, the second reporting v3 again at its second
position; the values handed out are 1, 2, 3, 4 and v3 is found with the
fourth. -/
theorem C7_check_order_strictly_increasing_witness :
    ∃ rc assigned rcH aH rc1 a r,
      saveBatches NewResourceConfig
        ([[([("ref", "v1")], []), ([("ref", "v3")], [])],
          [([("ref", "v2")], []), ([("ref", "v3")], [])]].map (inSpace "space")) =
        some (rc, assigned) ∧
      assigned.flatten = List.range' 1 4 ∧
      saveBatches NewResourceConfig
        ([[([("ref", "v1")], []), ([("ref", "v3")], [])]].map (inSpace "space")) =
        some (rcH, aH) ∧
      saveVersions rcH (inSpace "space" [([("ref", "v2")], []), ([("ref", "v3")], [])]) =
        some rc1 ∧
      assigned[1]? = some a ∧
      FindVersion rc1 "space" [("ref", "v3")] = (some r, none) ∧
      a[1]? = some r.checkOrder ∧
      r.checkOrder = 2 + 1 + 1 :=
  match (C7_check_order_strictly_increasing "space"
      [[([("ref", "v1")], []), ([("ref", "v3")], [])],
       [([("ref", "v2")], []), ([("ref", "v3")], [])]]).1 with
  | ⟨rc, assigned, h1, _, _, _, h5, _, _, _, htie⟩ =>
    match htie [[([("ref", "v1")], []), ([("ref", "v3")], [])]]
        [([("ref", "v2")], []), ([("ref", "v3")], [])] [] rfl with
    | ⟨rcH, aH, rc1, a, g1, g2, g3, g4⟩ =>
      match g4 [([("ref", "v2")], [])] [("ref", "v3")] [] [] rfl (by decide) with
      | ⟨r, f1, f2, f3⟩ => ⟨rc, assigned, rcH, aH, rc1, a, r, h1, h5, g1, g2, g3, f1, f2, f3⟩

/-- C8: a version that is stored in a space after a sequence of batches and is
reported again in a later batch is found afterwards with a check order greater
than every value handed out before and than every check order stored in the
space before; it still has exactly one row, and no row is added when every
version of the batch was stored already. In the scenario of the test, after
[v1, v3], latest = v3, [v2, v3], latest = v3 the space holds v1 at 1, v3 at 4
and v2 at 3, and `LatestVersions` returns v3 with order 4. -/
theorem C8_rereported_version_is_reordered (space : Space)
    (history : List (List (Version × Metadata))) (batch : List (Version × Metadata))
    (v : Version) (m : Metadata) (rc0 : ResourceConfig) (assigned : List (List Nat))
    (hhist : saveBatches NewResourceConfig (history.map (inSpace space)) =
      some (rc0, assigned))
    (hstored : (FindVersion rc0 space v).1 ≠ none)
    (hin : (v, m) ∈ batch) :
    (∃ rc1 r1, saveVersions rc0 (inSpace space batch) = some rc1 ∧
      FindVersion rc1 space v = (some r1, none) ∧
      r1.space = space ∧ r1.version = v ∧
      (∀ o ∈ assigned.flatten, o < r1.checkOrder) ∧
      (∀ r ∈ rc0.versions, r.space = space → r.checkOrder < r1.checkOrder) ∧
      (rc0.versions.filter (fun r => decide (r.key = (space, v)))).length = 1 ∧
      (rc1.versions.filter (fun r => decide (r.key = (space, v)))).length = 1 ∧
      ((∀ p ∈ batch, (FindVersion rc0 space p.1).1 ≠ none) →
        rc1.versions.length = rc0.versions.length)) ∧
    ((saveVersions NewResourceConfig
        (inSpace "space" [([("ref", "v1")], []), ([("ref", "v3")], [])])).bind
      (fun a => saveVersions (SaveSpaceLatestVersion a "space" [("ref", "v3")]).1
        (inSpace "space" [([("ref", "v2")], []), ([("ref", "v3")], [])]))).map
      (fun b => ((SaveSpaceLatestVersion b "space" [("ref", "v3")]).1.versions,
        LatestVersions (SaveSpaceLatestVersion b "space" [("ref", "v3")]).1)) =
      some ([{ space := "space", version := [("ref", "v1")], metadata := [], checkOrder := 1 },
             { space := "space", version := [("ref", "v3")], metadata := [], checkOrder := 4 },
             { space := "space", version := [("ref", "v2")], metadata := [], checkOrder := 3 }],
            ([{ space := "space", version := [("ref", "v3")], metadata := [],
                checkOrder := 4 }], none)) := by
  refine ⟨?_, by decide⟩
  obtain ⟨rcH, asg, hsb, _, hflat, hmax, hpend, hwf, _⟩ :=
    saveBatches_spec space history NewResourceConfig rfl
  rw [hhist] at hsb
  simp only [Option.some.injEq, Prod.mk.injEq] at hsb
  obtain ⟨hrc, hasg⟩ := hsb
  subst hrc hasg
  have hmax0 : maxCheckOrder NewResourceConfig.versions space = 0 := rfl
  rw [hmax0] at hflat hmax
  have hwf0 : RowsWF rc0.versions := hwf RowsWF_nil
  obtain ⟨rcL, rc1, _, hsv, _, _, hv1, _⟩ := saveVersions_spec rc0 (inSpace space batch)
  rw [hpend, List.nil_append] at hv1
  have hwf1 : RowsWF rc1.versions := by
    rw [hv1]
    exact commit_RowsWF _ _ hwf0
  have hp : ({ Space := space, Version := v, Metadata := m } : SpaceVersion) ∈
      inSpace space batch := List.mem_map.2 ⟨(v, m), hin, rfl⟩
  obtain ⟨r1, hr1, hk1, hgt⟩ := commit_reported rc0.versions (inSpace space batch) _ hp
  rw [← hv1] at hr1
  simp only at hk1 hgt
  have hfind : FindVersion rc1 space v = (some r1, none) := by
    unfold FindVersion
    rw [← hk1, find?_key_of_mem rc1.versions hwf1.1 r1 hr1]
  have hmem0 : (space, v) ∈ rc0.versions.map ResourceVersion.key := by
    by_contra hc
    apply hstored
    unfold FindVersion
    simp only
    rw [List.find?_eq_none]
    intro x hx hkx
    exact hc (List.mem_map.2 ⟨x, hx, by simpa using hkx⟩)
  refine ⟨rc1, r1, hsv, hfind, congrArg Prod.fst hk1, congrArg Prod.snd hk1, ?_, ?_, ?_, ?_, ?_⟩
  · intro o ho
    rw [hflat, List.mem_range'_1] at ho
    omega
  · intro r hr hs
    exact lt_of_le_of_lt (le_maxCheckOrder rc0.versions space r hr hs) hgt
  · exact filter_key_length_one _ hwf0.1 _ hmem0
  · exact filter_key_length_one _ hwf1.1 _ (List.mem_map.2 ⟨r1, hr1, hk1⟩)
  · intro hall
    have hkeys : rc1.versions.map ResourceVersion.key = rc0.versions.map ResourceVersion.key := by
      rw [hv1]
      apply commit_keys_of_stored
      intro p hq
      obtain ⟨q, hqb, rfl⟩ := List.mem_map.1 hq
      by_contra hc
      apply hall q hqb
      unfold FindVersion
      simp only
      rw [List.find?_eq_none]
      intro x hx hkx
      exact hc (List.mem_map.2 ⟨x, hx, by simpa using hkx⟩)
    have := congrArg List.length hkeys
    simpa using this

/-- Witness for C8: after the batch [v1, v3], the batch [v2, v3] reports v3
again. -/
theorem C8_rereported_version_is_reordered_witness :
    ∃ rc1 r1,
      saveVersions
        { spaces := [{ name := "space", latest := none }], defaultSpace := none,
          versions := [{ space := "space", version := [("ref", "v1")], metadata := [],
                         checkOrder := 1 },
                       { space := "space", version := [("ref", "v3")], metadata := [],
                         checkOrder := 2 }],
          pending := [] }
        (inSpace "space" [([("ref", "v2")], []), ([("ref", "v3")], [])]) = some rc1 ∧
      FindVersion rc1 "space" [("ref", "v3")] = (some r1, none) ∧
      ∀ o ∈ [[1, 2]].flatten, o < r1.checkOrder :=
  match (C8_rereported_version_is_reordered "space"
      [[([("ref", "v1")], []), ([("ref", "v3")], [])]]
      [([("ref", "v2")], []), ([("ref", "v3")], [])] [("ref", "v3")] []
      { spaces := [{ name := "space", latest := none }], defaultSpace := none,
        versions := [{ space := "space", version := [("ref", "v1")], metadata := [],
                       checkOrder := 1 },
                     { space := "space", version := [("ref", "v3")], metadata := [],
                       checkOrder := 2 }],
        pending := [] }
      [[1, 2]] (by decide) (by decide) (by decide)).1 with
  | ⟨rc1, r1, h1, h2, _, _, h5, _⟩ => ⟨rc1, r1, h1, h2, h5⟩

/-- C9: in every state reached by store operations in which the space is not
registered, `SavePartialVersion` into it returns the "space not found" error
and changes nothing: the space is still unregistered, no version is stored or
buffered for it, a lookup in it finds nothing, and the next commit stores
nothing for it. -/
theorem C9_save_into_unregistered_space_fails (ops : List Op) (space : Space)
    (version : Version) (metadata : Metadata)
    (hunreg : space ∉ (runOps ops).spaceNames) :
    (SavePartialVersion (runOps ops) space version metadata).2 =
      some StoreError.spaceNotFound ∧
    (SavePartialVersion (runOps ops) space version metadata).1 = runOps ops ∧
    space ∉ (SavePartialVersion (runOps ops) space version metadata).1.spaceNames ∧
    (∀ r ∈ (SavePartialVersion (runOps ops) space version metadata).1.versions,
      r.space ≠ space) ∧
    (∀ p ∈ (SavePartialVersion (runOps ops) space version metadata).1.pending,
      p.Space ≠ space) ∧
    (FindVersion (SavePartialVersion (runOps ops) space version metadata).1
      space version).1 = none ∧
    (∀ r ∈ (FinishSavingVersions
        (SavePartialVersion (runOps ops) space version metadata).1).1.versions,
      r.space ≠ space) := by
  have hreg := runOps_Registered ops
  have hsame : (SavePartialVersion (runOps ops) space version metadata) =
      (runOps ops, some StoreError.spaceNotFound) := by
    unfold SavePartialVersion
    rw [if_neg hunreg]
  rw [hsame]
  have hrows : ∀ r ∈ (runOps ops).versions, r.space ≠ space :=
    fun r hr hs => hunreg (hs ▸ hreg.1 r hr)
  refine ⟨rfl, rfl, hunreg, hrows, fun p hq hs => hunreg (hs ▸ hreg.2 p hq), ?_, ?_⟩
  · unfold FindVersion
    simp only
    rw [List.find?_eq_none]
    intro x hx hkx
    have hk : x.key = (space, version) := by simpa using hkx
    exact hrows x hx (congrArg Prod.fst hk)
  · intro r hr hs
    have hreg2 := Op_apply_Registered (runOps ops) Op.finishSavingVersions hreg
    exact hunreg (hs ▸ hreg2.1 r hr)

/-- Witness for C9: the test "does not save the version", on a resource config
whose only space is "space". -/
theorem C9_save_into_unregistered_space_fails_witness :
    "unknown-space" ∉ (runOps [Op.saveSpace "space"]).spaceNames ∧
    (SavePartialVersion (runOps [Op.saveSpace "space"]) "unknown-space"
        [("some", "version")] [{ Name := "some", Value := "metadata" }]).2 =
      some StoreError.spaceNotFound ∧
    (SavePartialVersion (runOps [Op.saveSpace "space"]) "unknown-space"
        [("some", "version")] [{ Name := "some", Value := "metadata" }]).1 =
      runOps [Op.saveSpace "space"] :=
  ⟨by decide,
   (C9_save_into_unregistered_space_fails [Op.saveSpace "space"] "unknown-space"
      [("some", "version")] [{ Name := "some", Value := "metadata" }] (by decide)).1,
   (C9_save_into_unregistered_space_fails [Op.saveSpace "space"] "unknown-space"
      [("some", "version")] [{ Name := "some", Value := "metadata" }] (by decide)).2.1⟩

/-! ## The checking-lock claims -/

/-- C10, as stated, fails: on a new scope the lock is acquired at time 0 with an
interval of one second and released; a further call 10 ms after the
acquisition, well within the interval, does not return acquired = false. This
is the sequence of the test "and the lock gets released / gets the lock". -/
theorem C10_counterexample :
    (AcquireResourceCheckingLock NewResourceConfigScope 0 Second).2.1 = true ∧
    10 * Millisecond - 0 < Second ∧
    ¬ (AcquireResourceCheckingLock
        (Release (AcquireResourceCheckingLock NewResourceConfigScope 0 Second).1).1
        (10 * Millisecond) Second).2.1 = false := by
  decide

/-- C10, amended: on a scope whose lock is free and which has no check recorded
within `d` of `t1`, `AcquireResourceCheckingLock(d)` at `t1` returns acquired =
true; while the holder has not released, a call at any time returns acquired =
false and changes nothing; after `Release()` a further call at any time from
`t1` on, within `d` of the acquisition or later, returns acquired = true; none
of these calls returns an error. -/
theorem C10_lock_is_exclusive_until_released (sc : ResourceConfigScope) (d t1 t2 t3 : Int)
    (hfree : sc.lockHeld = false) (hgate : intervalElapsed sc t1 d = true)
    (h13 : t1 ≤ t3) :
    (AcquireResourceCheckingLock sc t1 d).2 = (true, none) ∧
    AcquireResourceCheckingLock (AcquireResourceCheckingLock sc t1 d).1 t2 d =
      ((AcquireResourceCheckingLock sc t1 d).1, false, none) ∧
    (Release (AcquireResourceCheckingLock sc t1 d).1).2 = none ∧
    (AcquireResourceCheckingLock
      (Release (AcquireResourceCheckingLock sc t1 d).1).1 t3 d).2 = (true, none) := by
  have h1 : AcquireResourceCheckingLock sc t1 d = ({ sc with lockHeld := true }, true, none) := by
    unfold AcquireResourceCheckingLock
    simp [hfree, hgate]
  have hgate3 : intervalElapsed { sc with lockHeld := false } t3 d = true := by
    unfold intervalElapsed at hgate ⊢
    cases hlc : sc.lastChecked with
    | none => rfl
    | some t =>
      rw [hlc] at hgate
      simp only [decide_eq_true_eq] at hgate ⊢
      omega
  rw [h1]
  refine ⟨rfl, ?_, rfl, ?_⟩
  · unfold AcquireResourceCheckingLock
    simp
  · unfold AcquireResourceCheckingLock Release
    simp [hgate3]

/-- Witness for C10: a new scope, an interval of one second; the lock is taken
at 0, refused at 100 ms, released, and taken again at 200 ms. -/
theorem C10_lock_is_exclusive_until_released_witness :
    NewResourceConfigScope.lockHeld = false ∧
    intervalElapsed NewResourceConfigScope 0 Second = true ∧
    (AcquireResourceCheckingLock NewResourceConfigScope 0 Second).2 = (true, none) ∧
    (AcquireResourceCheckingLock
      (Release (AcquireResourceCheckingLock NewResourceConfigScope 0 Second).1).1
      (200 * Millisecond) Second).2 = (true, none) :=
  ⟨rfl, rfl,
   (C10_lock_is_exclusive_until_released NewResourceConfigScope Second 0
      (100 * Millisecond) (200 * Millisecond) rfl rfl (by decide)).1,
   (C10_lock_is_exclusive_until_released NewResourceConfigScope Second 0
      (100 * Millisecond) (200 * Millisecond) rfl rfl (by decide)).2.2.2⟩

end Db

namespace Db

/-! ## The rate gate -/

theorem runCalls_length (sc : ResourceConfigScope) (calls : List Call) :
    (runCalls sc calls).2.length = calls.length := by
  induction calls generalizing sc with
  | nil => rfl
  | cons c rest ih =>
    simp only [runCalls, List.length_cons]
    rw [ih]

theorem UpdateLastChecked_lastChecked_ge (sc : ResourceConfigScope) (c : Call) (bound t0 : Int)
    (h0 : sc.lastChecked = some t0) (hb : bound ≤ t0) (hc : bound ≤ c.now) :
    ∃ t1, (UpdateLastChecked sc c.now c.interval c.immediate).1.lastChecked = some t1 ∧
      bound ≤ t1 := by
  unfold UpdateLastChecked
  split
  · exact ⟨c.now, rfl, hc⟩
  · exact ⟨t0, h0, hb⟩

theorem runCalls_after (sc : ResourceConfigScope) (calls : List Call) (bound t0 : Int)
    (h0 : sc.lastChecked = some t0) (hb : bound ≤ t0)
    (hlater : ∀ c ∈ calls, bound ≤ c.now) :
    ∀ p ∈ calls.zip (runCalls sc calls).2,
      p.2 = true → p.1.immediate = false → p.1.interval ≤ p.1.now - bound := by
  induction calls generalizing sc t0 with
  | nil =>
    intro p hp
    cases hp
  | cons c rest ih =>
    intro p hp
    simp only [runCalls, List.zip_cons_cons, List.mem_cons] at hp
    rcases hp with hp | hp
    · subst hp
      intro hres himm
      simp only at hres himm ⊢
      unfold UpdateLastChecked at hres
      rw [himm] at hres
      simp only [Bool.false_or] at hres
      by_cases hg : intervalElapsed sc c.now c.interval = true
      · unfold intervalElapsed at hg
        rw [h0] at hg
        simp only [decide_eq_true_eq] at hg
        omega
      · simp [hg] at hres
    · obtain ⟨t1, h1, hb1⟩ := UpdateLastChecked_lastChecked_ge sc c bound t0 h0 hb
        (hlater c (List.mem_cons_self _ _))
      exact ih _ t1 h1 hb1 (fun c2 hc2 => hlater c2 (List.mem_cons_of_mem _ hc2)) p hp

theorem runCalls_spaced (sc : ResourceConfigScope) (calls : List Call)
    (hsorted : calls.Pairwise (fun a b => a.now ≤ b.now)) :
    (calls.zip (runCalls sc calls).2).Pairwise (fun a b =>
      a.2 = true → b.2 = true → b.1.immediate = false →
        b.1.interval ≤ b.1.now - a.1.now) := by
  induction calls generalizing sc with
  | nil => simp [runCalls]
  | cons c rest ih =>
    rw [List.pairwise_cons] at hsorted
    simp only [runCalls, List.zip_cons_cons, List.pairwise_cons]
    refine ⟨?_, ih _ hsorted.2⟩
    intro p hp hres
    have hlc : (UpdateLastChecked sc c.now c.interval c.immediate).1.lastChecked =
        some c.now := by
      unfold UpdateLastChecked at hres ⊢
      split
      · rfl
      · rename_i hcond
        simp [hcond] at hres
    exact runCalls_after _ rest c.now c.now hlc (le_refl _) hsorted.1 p hp

/-- C11: for every scope state, `UpdateLastChecked(interval, true)` returns true
and sets `last_checked` to now; `UpdateLastChecked(interval, false)` returns
true, setting `last_checked` to now, exactly when no check is recorded or the
time since the stored `last_checked` is at least `interval`, and otherwise
returns false and changes nothing; no call returns an error. Hence, for calls
made in time order, a non-immediate call that returns true is at least its
interval later than every earlier call that returned true. -/
theorem C11_update_last_checked_is_a_rate_gate (sc : ResourceConfigScope)
    (now interval : Int) (calls : List Call)
    (hsorted : calls.Pairwise (fun a b => a.now ≤ b.now)) :
    UpdateLastChecked sc now interval true =
      ({ sc with lastChecked := some now }, true, none) ∧
    ((UpdateLastChecked sc now interval false).2.1 = true ↔
      (sc.lastChecked = none ∨ ∃ t, sc.lastChecked = some t ∧ interval ≤ now - t)) ∧
    ((UpdateLastChecked sc now interval false).2.1 = true →
      UpdateLastChecked sc now interval false =
        ({ sc with lastChecked := some now }, true, none)) ∧
    ((UpdateLastChecked sc now interval false).2.1 = false →
      UpdateLastChecked sc now interval false = (sc, false, none)) ∧
    (runCalls sc calls).2.length = calls.length ∧
    (calls.zip (runCalls sc calls).2).Pairwise (fun a b =>
      a.2 = true → b.2 = true → b.1.immediate = false →
        b.1.interval ≤ b.1.now - a.1.now) := by
  have hgate : intervalElapsed sc now interval = true ↔
      (sc.lastChecked = none ∨ ∃ t, sc.lastChecked = some t ∧ interval ≤ now - t) := by
    unfold intervalElapsed
    cases hlc : sc.lastChecked with
    | none => simp
    | some t => simp
  refine ⟨?_, ?_, ?_, ?_, runCalls_length sc calls, runCalls_spaced sc calls hsorted⟩
  · simp [UpdateLastChecked]
  · rw [← hgate]
    unfold UpdateLastChecked
    by_cases hg : intervalElapsed sc now interval = true
    · simp [hg]
    · simp [hg]
  · unfold UpdateLastChecked
    by_cases hg : intervalElapsed sc now interval = true
    · simp [hg]
    · simp [hg]
  · unfold UpdateLastChecked
    by_cases hg : intervalElapsed sc now interval = true
    · simp [hg]
    · simp [hg]

/-- Witness for C11: on a new scope, non-immediate calls with an interval of one
second at 0, at 100 ms and at 1 s return true, false and true. -/
theorem C11_update_last_checked_is_a_rate_gate_witness :
    [Call.mk 0 Second false, Call.mk (100 * Millisecond) Second false,
      Call.mk Second Second false].Pairwise (fun a b => a.now ≤ b.now) ∧
    (runCalls NewResourceConfigScope
      [Call.mk 0 Second false, Call.mk (100 * Millisecond) Second false,
        Call.mk Second Second false]).2 = [true, false, true] ∧
    ([Call.mk 0 Second false, Call.mk (100 * Millisecond) Second false,
        Call.mk Second Second false].zip
      (runCalls NewResourceConfigScope
        [Call.mk 0 Second false, Call.mk (100 * Millisecond) Second false,
          Call.mk Second Second false]).2).Pairwise (fun a b =>
      a.2 = true → b.2 = true → b.1.immediate = false →
        b.1.interval ≤ b.1.now - a.1.now) :=
  ⟨by decide, by decide,
   (C11_update_last_checked_is_a_rate_gate NewResourceConfigScope 0 Second
      [Call.mk 0 Second false, Call.mk (100 * Millisecond) Second false,
        Call.mk Second Second false] (by decide)).2.2.2.2.2⟩

/-! ## Lookups -/

theorem Op_apply_RowsWF (rc : ResourceConfig) (op : Op) (h : RowsWF rc.versions) :
    RowsWF (op.apply rc).versions := by
  cases op with
  | saveSpace space =>
    simp only [Op.apply, (SaveSpace_frame rc space).2.1]
    exact h
  | savePartialVersion space version metadata =>
    simp only [Op.apply, SavePartialVersion]
    split <;> exact h
  | finishSavingVersions =>
    simp only [Op.apply, FinishSavingVersions]
    exact commit_RowsWF _ _ h
  | saveSpaceLatestVersion space version =>
    simp only [Op.apply, (SaveSpaceLatestVersion_frame rc space version).2.1]
    exact h

theorem foldl_RowsWF (ops : List Op) (rc : ResourceConfig) (h : RowsWF rc.versions) :
    RowsWF (ops.foldl Op.apply rc).versions := by
  induction ops generalizing rc with
  | nil => exact h
  | cons op rest ih => exact ih _ (Op_apply_RowsWF rc op h)

theorem runOps_RowsWF (ops : List Op) : RowsWF (runOps ops).versions :=
  foldl_RowsWF ops _ RowsWF_nil

theorem FindVersion_eq_none_iff (rc : ResourceConfig) (space : Space) (version : Version) :
    (FindVersion rc space version).1 = none ↔
      (space, version) ∉ rc.versions.map ResourceVersion.key := by
  unfold FindVersion
  simp only
  rw [List.find?_eq_none]
  constructor
  · intro h hm
    obtain ⟨r, hr, hk⟩ := List.mem_map.1 hm
    exact h r hr (by simpa using hk)
  · intro h r hr hk
    exact h (List.mem_map.2 ⟨r, hr, by simpa using hk⟩)

/-- C12: in every state reached by store operations, `FindVersion(space,
content)` never returns an error; it returns not-found exactly when the space
holds no stored version with that content, in particular when the space is
not registered and when the content is stored only in other spaces; it
returns the stored version, with its check order, when there is one, and
after a commit it finds every version the commit was handed for that space,
with a check order above zero. In the test, after the batch [v1, v3] into
"space", v1 is found with order 1, v2 is not found, and nothing is found in
the space "non-existant". -/
theorem C12_find_version (ops : List Op) (space : Space) (version : Version) :
    (FindVersion (runOps ops) space version).2 = none ∧
    ((FindVersion (runOps ops) space version).1 = none ↔
      ∀ r ∈ (runOps ops).versions, ¬ (r.space = space ∧ r.version = version)) ∧
    (space ∉ (runOps ops).spaceNames → (FindVersion (runOps ops) space version).1 = none) ∧
    ((∀ r ∈ (runOps ops).versions, r.version = version → r.space ≠ space) →
      (FindVersion (runOps ops) space version).1 = none) ∧
    (∀ r ∈ (runOps ops).versions, r.space = space → r.version = version →
      FindVersion (runOps ops) space version = (some r, none)) ∧
    (∀ metadata : Metadata,
      ({ Space := space, Version := version, Metadata := metadata } : SpaceVersion) ∈
        (runOps ops).pending →
      ∃ r, FindVersion (FinishSavingVersions (runOps ops)).1 space version = (some r, none) ∧
        r ∈ (FinishSavingVersions (runOps ops)).1.versions ∧
        r.space = space ∧ r.version = version ∧ 0 < r.checkOrder) ∧
    (FindVersion (runOps [Op.saveSpace "space",
          Op.savePartialVersion "space" [("ref", "v1")] [],
          Op.saveSpace "space", Op.savePartialVersion "space" [("ref", "v3")] [],
          Op.finishSavingVersions]) "space" [("ref", "v1")] =
        (some { space := "space", version := [("ref", "v1")], metadata := [],
                checkOrder := 1 }, none) ∧
      FindVersion (runOps [Op.saveSpace "space",
          Op.savePartialVersion "space" [("ref", "v1")] [],
          Op.saveSpace "space", Op.savePartialVersion "space" [("ref", "v3")] [],
          Op.finishSavingVersions]) "space" [("ref", "v2")] = (none, none) ∧
      FindVersion (runOps [Op.saveSpace "space",
          Op.savePartialVersion "space" [("ref", "v1")] [],
          Op.saveSpace "space", Op.savePartialVersion "space" [("ref", "v3")] [],
          Op.finishSavingVersions]) "non-existant" [("ref", "v2")] = (none, none)) := by
  have hreg := runOps_Registered ops
  have hwf := runOps_RowsWF ops
  have hnone : (FindVersion (runOps ops) space version).1 = none ↔
      ∀ r ∈ (runOps ops).versions, ¬ (r.space = space ∧ r.version = version) := by
    rw [FindVersion_eq_none_iff]
    constructor
    · intro h r hr hk
      exact h (List.mem_map.2 ⟨r, hr, Prod.ext hk.1 hk.2⟩)
    · intro h hm
      obtain ⟨r, hr, hk⟩ := List.mem_map.1 hm
      exact h r hr ⟨congrArg Prod.fst hk, congrArg Prod.snd hk⟩
  refine ⟨rfl, hnone, ?_, ?_, ?_, ?_, by decide⟩
  · intro hunreg
    rw [hnone]
    intro r hr hk
    exact hunreg (hk.1 ▸ hreg.1 r hr)
  · intro hother
    rw [hnone]
    intro r hr hk
    exact hother r hr hk.2 hk.1
  · intro r hr hs hv
    have hk : r.key = (space, version) := Prod.ext hs hv
    unfold FindVersion
    rw [← hk, find?_key_of_mem _ hwf.1 r hr]
  · intro metadata hp
    obtain ⟨r, hr, hk, hgt⟩ := commit_reported (runOps ops).versions (runOps ops).pending _ hp
    have hwf2 : RowsWF (FinishSavingVersions (runOps ops)).1.versions :=
      commit_RowsWF _ _ hwf
    refine ⟨r, ?_, hr, congrArg Prod.fst hk, congrArg Prod.snd hk, by omega⟩
    unfold FindVersion
    simp only at hk
    rw [← hk, find?_key_of_mem _ hwf2.1 r hr]

/-- Witness for C12: a version committed into "space" is found there and is not
found in "space2", which is registered but holds nothing. -/
theorem C12_find_version_witness :
    (∃ r, FindVersion (FinishSavingVersions (runOps [Op.saveSpace "space",
          Op.saveSpace "space2", Op.savePartialVersion "space" [("ref", "v1")] []])).1
        "space" [("ref", "v1")] = (some r, none) ∧
      r ∈ (FinishSavingVersions (runOps [Op.saveSpace "space",
          Op.saveSpace "space2", Op.savePartialVersion "space" [("ref", "v1")] []])).1.versions ∧
      r.space = "space" ∧ r.version = [("ref", "v1")] ∧ 0 < r.checkOrder) ∧
    (FindVersion (runOps [Op.saveSpace "space", Op.saveSpace "space2",
        Op.savePartialVersion "space" [("ref", "v1")] [], Op.finishSavingVersions])
      "space2" [("ref", "v1")]).1 = none :=
  ⟨(C12_find_version [Op.saveSpace "space", Op.saveSpace "space2",
        Op.savePartialVersion "space" [("ref", "v1")] []] "space" [("ref", "v1")]).2.2.2.2.2.1
      [] (by decide),
   (C12_find_version [Op.saveSpace "space", Op.saveSpace "space2",
        Op.savePartialVersion "space" [("ref", "v1")] [], Op.finishSavingVersions]
      "space2" [("ref", "v1")]).2.2.2.1 (by decide)⟩

/-! ## Latest pointers -/

theorem SpacesWF_init : SpacesWF NewResourceConfig := by
  simp [SpacesWF, NewResourceConfig, ResourceConfig.spaceNames]

theorem Op_apply_SpacesWF (rc : ResourceConfig) (op : Op) (h : SpacesWF rc) :
    SpacesWF (op.apply rc) := by
  obtain ⟨hnd, hptr⟩ := h
  cases op with
  | saveSpace space =>
    simp only [Op.apply, SaveSpace]
    by_cases hreg : space ∈ rc.spaceNames
    · rw [if_pos hreg]
      exact ⟨hnd, hptr⟩
    · rw [if_neg hreg]
      refine ⟨?_, ?_⟩
      · simp only [ResourceConfig.spaceNames, List.map_append, List.map_singleton]
        exact List.Nodup.append hnd (List.nodup_singleton _)
          (by
            intro a ha hb
            rw [List.mem_singleton] at hb
            exact hreg (hb ▸ ha))
      · intro sp hsp v hv
        rcases List.mem_append.1 hsp with h1 | h1
        · exact hptr sp h1 v hv
        · rw [List.mem_singleton] at h1
          subst h1
          cases hv
  | savePartialVersion space version metadata =>
    simp only [Op.apply, SavePartialVersion]
    split <;> exact ⟨hnd, hptr⟩
  | finishSavingVersions =>
    simp only [Op.apply, FinishSavingVersions]
    refine ⟨hnd, ?_⟩
    intro sp hsp v hv
    exact (commit_keys _ _ _).2 (Or.inl (hptr sp hsp v hv))
  | saveSpaceLatestVersion space version =>
    obtain ⟨h1, h2, _⟩ := SaveSpaceLatestVersion_frame rc space version
    refine ⟨?_, ?_⟩
    · simp only [Op.apply, h1]
      exact hnd
    · simp only [Op.apply, h2]
      unfold SaveSpaceLatestVersion
      by_cases hm : (space, version) ∈ rc.versions.map ResourceVersion.key
      · rw [if_pos hm]
        intro sp2 hsp2 v hv
        obtain ⟨sp, hsp, rfl⟩ := List.mem_map.1 hsp2
        by_cases hn : sp.name = space
        · rw [if_pos hn] at hv ⊢
          simp only [Option.some.injEq] at hv
          simp only
          rw [hn, ← hv]
          exact hm
        · rw [if_neg hn] at hv ⊢
          exact hptr sp hsp v hv
      · rw [if_neg hm]
        exact hptr

theorem foldl_SpacesWF (ops : List Op) (rc : ResourceConfig) (h : SpacesWF rc) :
    SpacesWF (ops.foldl Op.apply rc) := by
  induction ops generalizing rc with
  | nil => exact h
  | cons op rest ih => exact ih _ (Op_apply_SpacesWF rc op h)

theorem runOps_SpacesWF (ops : List Op) : SpacesWF (runOps ops) :=
  foldl_SpacesWF ops _ SpacesWF_init

theorem find?_name_of_mem (spaces : List SpaceRow)
    (hnd : (spaces.map SpaceRow.name).Nodup) (sp : SpaceRow) (hsp : sp ∈ spaces) :
    spaces.find? (fun x => decide (x.name = sp.name)) = some sp := by
  induction spaces with
  | nil => cases hsp
  | cons x rest ih =>
    rw [List.map_cons, List.nodup_cons] at hnd
    by_cases hx : x.name = sp.name
    · have hxs : x = sp := by
        rcases List.mem_cons.1 hsp with he | hin
        · exact he.symm
        · exact absurd (hx ▸ List.mem_map_of_mem _ hin) hnd.1
      simp [List.find?, hx, hxs]
    · have hin : sp ∈ rest := by
        rcases List.mem_cons.1 hsp with he | hin
        · exact absurd (by rw [he]) hx
        · exact hin
      simp only [List.find?, hx, decide_False]
      exact ih hnd.2 hin

theorem latestOf_of_mem (rc : ResourceConfig) (hnd : rc.spaceNames.Nodup) (sp : SpaceRow)
    (hsp : sp ∈ rc.spaces) : latestOf rc sp.name = sp.latest := by
  unfold latestOf
  rw [find?_name_of_mem rc.spaces hnd sp hsp]
  rfl

theorem latestOf_of_not_mem (rc : ResourceConfig) (space : Space)
    (h : space ∉ rc.spaceNames) : latestOf rc space = none := by
  unfold latestOf
  have : rc.spaces.find? (fun sp => decide (sp.name = space)) = none := by
    rw [List.find?_eq_none]
    intro sp hsp hn
    exact h (List.mem_map.2 ⟨sp, hsp, by simpa using hn⟩)
  rw [this]
  rfl

theorem latestOf_apply (rc : ResourceConfig) (op : Op) (space : Space)
    (hreg : Registered rc) (hwf : SpacesWF rc) :
    latestOf (op.apply rc) space = op.passed rc space (latestOf rc space) := by
  cases op with
  | saveSpace s2 =>
    simp only [Op.apply, Op.passed, SaveSpace]
    by_cases hs2 : s2 ∈ rc.spaceNames
    · rw [if_pos hs2]
    · rw [if_neg hs2]
      unfold latestOf
      simp only [List.find?_append]
      cases hf : rc.spaces.find? (fun sp => decide (sp.name = space)) with
      | some x => rfl
      | none =>
        by_cases hn : s2 = space
        · simp [List.find?, hn]
        · simp [List.find?, hn]
  | savePartialVersion s2 version metadata =>
    simp only [Op.apply, Op.passed, SavePartialVersion]
    split <;> rfl
  | finishSavingVersions => rfl
  | saveSpaceLatestVersion s2 v =>
    simp only [Op.apply, Op.passed]
    unfold SaveSpaceLatestVersion
    by_cases hm : (s2, v) ∈ rc.versions.map ResourceVersion.key
    · rw [if_pos hm]
      have hs2 : s2 ∈ rc.spaceNames := by
        obtain ⟨r, hr, hk⟩ := List.mem_map.1 hm
        have hsp : r.space = s2 := congrArg Prod.fst hk
        exact hsp ▸ hreg.1 r hr
      have hcomp : ((fun sp : SpaceRow => decide (sp.name = space)) ∘
          (fun sp : SpaceRow => if sp.name = s2 then { sp with latest := some v } else sp)) =
          (fun sp : SpaceRow => decide (sp.name = space)) := by
        funext sp
        simp only [Function.comp]
        split <;> rfl
      unfold latestOf
      simp only [List.find?_map, hcomp]
      by_cases hn : s2 = space
      · subst hn
        obtain ⟨sp, hsp, hname⟩ := List.mem_map.1 hs2
        have hfind := find?_name_of_mem rc.spaces hwf.1 sp hsp
        rw [hname] at hfind
        rw [hfind]
        simp [hname]
      · have hcond : ¬ (s2 = space ∧ True) := fun h => hn h.1
        rw [if_neg hcond]
        cases hf : rc.spaces.find? (fun sp => decide (sp.name = space)) with
        | none => rfl
        | some x =>
          have hx : x.name = space := by simpa using List.find?_some hf
          have hne : ¬ x.name = s2 := fun h => hn (h.symm.trans hx)
          simp [hne]
    · rw [if_neg hm]
      simp

theorem latestOf_foldl (ops : List Op) (rc : ResourceConfig) (space : Space)
    (hreg : Registered rc) (hwf : SpacesWF rc) :
    latestOf (ops.foldl Op.apply rc) space =
      lastPassedFrom rc (latestOf rc space) space ops := by
  induction ops generalizing rc with
  | nil => rfl
  | cons op rest ih =>
    simp only [List.foldl_cons, lastPassedFrom]
    rw [ih _ (Op_apply_Registered rc op hreg) (Op_apply_SpacesWF rc op hwf),
      latestOf_apply rc op space hreg hwf]

theorem latestOf_runOps (ops : List Op) (space : Space) :
    latestOf (runOps ops) space = lastPassed ops space :=
  latestOf_foldl ops NewResourceConfig space Registered_init SpacesWF_init

theorem latest_rows_keys (versions : List ResourceVersion)
    (hk : (versions.map ResourceVersion.key).Nodup) (l : List SpaceRow)
    (hptr : ∀ sp ∈ l, ∀ v, sp.latest = some v →
      (sp.name, v) ∈ versions.map ResourceVersion.key) :
    (l.filterMap (fun sp =>
      match sp.latest with
      | none => none
      | some v => versions.find? (fun r => decide (r.key = (sp.name, v))))).map
        ResourceVersion.key =
      l.filterMap (fun sp => sp.latest.map (fun v => (sp.name, v))) := by
  induction l with
  | nil => rfl
  | cons sp rest ih =>
    have ih2 := ih (fun sp2 h2 => hptr sp2 (List.mem_cons_of_mem _ h2))
    cases hl : sp.latest with
    | none =>
      rw [List.filterMap_cons_none (by simp [hl]), List.filterMap_cons_none (by simp [hl])]
      exact ih2
    | some v =>
      obtain ⟨r, hr, hkr⟩ := List.mem_map.1 (hptr sp (List.mem_cons_self _ _) v hl)
      have hfind : versions.find? (fun x => decide (x.key = (sp.name, v))) = some r := by
        rw [← hkr]
        exact find?_key_of_mem versions hk r hr
      rw [List.filterMap_cons_some (b := r) (by simp [hl, hfind]),
        List.filterMap_cons_some (b := (sp.name, v)) (by simp [hl])]
      rw [List.map_cons, ih2, hkr]

theorem latest_pointers_by_name (rc : ResourceConfig) (l : List SpaceRow)
    (h : ∀ sp ∈ l, latestOf rc sp.name = sp.latest) :
    l.filterMap (fun sp => sp.latest.map (fun v => (sp.name, v))) =
      (l.map SpaceRow.name).filterMap (fun s => (latestOf rc s).map (fun v => (s, v))) := by
  induction l with
  | nil => rfl
  | cons sp rest ih =>
    have ih2 := ih (fun sp2 h2 => h sp2 (List.mem_cons_of_mem _ h2))
    have hsp := h sp (List.mem_cons_self _ _)
    cases hl : sp.latest with
    | none =>
      rw [List.map_cons, List.filterMap_cons_none (by simp [hl]),
        List.filterMap_cons_none (by simp [hsp, hl])]
      exact ih2
    | some v =>
      rw [List.map_cons, List.filterMap_cons_some (b := (sp.name, v)) (by simp [hl]),
        List.filterMap_cons_some (b := (sp.name, v)) (by simp [hsp, hl]), ih2]

/-- C13: in every state reached by store operations, `LatestVersions` returns no
error and, going through the spaces in registration order (no space is
registered twice), one version for each space for which a call of
`SaveSpaceLatestVersion` has succeeded and none for the other spaces; the
version returned for a space is the one last passed to such a call, and it is
the row stored for it, so it carries its current check order. In the test,
with "space" and then "space2" registered and a latest version set in each,
the result has two entries, the version of "space" first. -/
theorem C13_latest_versions_per_space (ops : List Op) :
    (LatestVersions (runOps ops)).2 = none ∧
    (LatestVersions (runOps ops)).1.map ResourceVersion.key =
      (runOps ops).spaceNames.filterMap
        (fun s => (lastPassed ops s).map (fun v => (s, v))) ∧
    (runOps ops).spaceNames.Nodup ∧
    (∀ r ∈ (LatestVersions (runOps ops)).1,
      r ∈ (runOps ops).versions ∧
      FindVersion (runOps ops) r.space r.version = (some r, none)) ∧
    (∀ s, s ∉ (runOps ops).spaceNames → lastPassed ops s = none) ∧
    LatestVersions (runOps [Op.saveSpace "space",
        Op.saveSpace "space",
        Op.savePartialVersion "space" [("some", "other-version")]
          [{ Name := "some", Value := "metadata" }],
        Op.saveSpace "space",
        Op.savePartialVersion "space" [("some", "version")]
          [{ Name := "some", Value := "metadata" }],
        Op.finishSavingVersions,
        Op.saveSpace "space2",
        Op.saveSpace "space2",
        Op.savePartialVersion "space2" [("some", "version2")]
          [{ Name := "some", Value := "metadata" }],
        Op.finishSavingVersions,
        Op.saveSpaceLatestVersion "space" [("some", "version")],
        Op.saveSpaceLatestVersion "space2" [("some", "version2")]]) =
      ([{ space := "space", version := [("some", "version")],
          metadata := [{ Name := "some", Value := "metadata" }], checkOrder := 2 },
        { space := "space2", version := [("some", "version2")],
          metadata := [{ Name := "some", Value := "metadata" }], checkOrder := 1 }],
       none) := by
  have hwf := runOps_RowsWF ops
  have hsp := runOps_SpacesWF ops
  refine ⟨rfl, ?_, hsp.1, ?_, ?_, by decide⟩
  · unfold LatestVersions
    simp only
    rw [latest_rows_keys _ hwf.1 _ hsp.2,
      latest_pointers_by_name (runOps ops) _
        (fun sp h => latestOf_of_mem (runOps ops) hsp.1 sp h)]
    simp only [latestOf_runOps]
    rfl
  · intro r hr
    unfold LatestVersions at hr
    simp only [List.mem_filterMap] at hr
    obtain ⟨sp, _, hf⟩ := hr
    have hmem : r ∈ (runOps ops).versions := by
      cases hl : sp.latest with
      | none =>
        rw [hl] at hf
        cases hf
      | some v =>
        rw [hl] at hf
        exact List.mem_of_find?_eq_some hf
    refine ⟨hmem, ?_⟩
    unfold FindVersion
    have hk : r.key = (r.space, r.version) := rfl
    rw [← hk, find?_key_of_mem _ hwf.1 r hmem]
  · intro s hs
    rw [← latestOf_runOps]
    exact latestOf_of_not_mem _ s hs

/-- Witness for C13: the latest pointer of "space" is set to v1 and then to v3;
`LatestVersions` returns v3, and nothing for "space2", whose pointer has not
been set. -/
theorem C13_latest_versions_per_space_witness :
    (LatestVersions (runOps [Op.saveSpace "space", Op.saveSpace "space2",
        Op.savePartialVersion "space" [("ref", "v1")] [],
        Op.savePartialVersion "space" [("ref", "v3")] [],
        Op.finishSavingVersions,
        Op.saveSpaceLatestVersion "space" [("ref", "v1")],
        Op.saveSpaceLatestVersion "space" [("ref", "v3")]])).1.map ResourceVersion.key =
      (runOps [Op.saveSpace "space", Op.saveSpace "space2",
        Op.savePartialVersion "space" [("ref", "v1")] [],
        Op.savePartialVersion "space" [("ref", "v3")] [],
        Op.finishSavingVersions,
        Op.saveSpaceLatestVersion "space" [("ref", "v1")],
        Op.saveSpaceLatestVersion "space" [("ref", "v3")]]).spaceNames.filterMap
        (fun s => (lastPassed [Op.saveSpace "space", Op.saveSpace "space2",
          Op.savePartialVersion "space" [("ref", "v1")] [],
          Op.savePartialVersion "space" [("ref", "v3")] [],
          Op.finishSavingVersions,
          Op.saveSpaceLatestVersion "space" [("ref", "v1")],
          Op.saveSpaceLatestVersion "space" [("ref", "v3")]] s).map (fun v => (s, v))) ∧
    (LatestVersions (runOps [Op.saveSpace "space", Op.saveSpace "space2",
        Op.savePartialVersion "space" [("ref", "v1")] [],
        Op.savePartialVersion "space" [("ref", "v3")] [],
        Op.finishSavingVersions,
        Op.saveSpaceLatestVersion "space" [("ref", "v1")],
        Op.saveSpaceLatestVersion "space" [("ref", "v3")]])).1 =
      [{ space := "space", version := [("ref", "v3")], metadata := [], checkOrder := 2 }] :=
  ⟨(C13_latest_versions_per_space [Op.saveSpace "space", Op.saveSpace "space2",
        Op.savePartialVersion "space" [("ref", "v1")] [],
        Op.savePartialVersion "space" [("ref", "v3")] [],
        Op.finishSavingVersions,
        Op.saveSpaceLatestVersion "space" [("ref", "v1")],
        Op.saveSpaceLatestVersion "space" [("ref", "v3")]]).2.1,
   by decide⟩

end Db

namespace Auth

/-! ## The token generator -/

/-- C14: for every expiration time, team name and team ID, `GenerateToken` hands
the signer one token, made for the package's signing method, whose claims are
exactly `exp` = the expiration's Unix seconds, `teamName` = the team name and
`teamID` = the team ID, together with the generator's private key; when
signing succeeds it returns the token type "Bearer", the signed string as the
token value and no error, and when signing fails it returns an empty token
type, an empty token value and the signing error. -/
theorem C14_generate_token {Key Method : Type} (SigningMethod : Method)
    (generator : tokenGenerator Key) (expiration : Time) (teamName : String)
    (teamID : Int) :
    ∃ token : jwt.Token Method,
      token.Method = SigningMethod ∧
      token.claim "exp" = some (ClaimValue.int64 expiration.Unix) ∧
      token.claim "teamName" = some (ClaimValue.str teamName) ∧
      token.claim "teamID" = some (ClaimValue.int teamID) ∧
      token.Claims.map Prod.fst = ["exp", "teamName", "teamID"] ∧
      ∀ SignedString : jwt.Token Method → Key → Except Error String,
        (∀ signed, SignedString token generator.privateKey = .ok signed →
          GenerateToken SigningMethod SignedString generator expiration teamName teamID =
            ("Bearer", signed, none)) ∧
        (∀ err, SignedString token generator.privateKey = .error err →
          GenerateToken SigningMethod SignedString generator expiration teamName teamID =
            ("", "", some err)) := by
  refine ⟨(((jwt.New SigningMethod).setClaim "exp" (ClaimValue.int64 expiration.Unix)).setClaim
      "teamName" (ClaimValue.str teamName)).setClaim "teamID" (ClaimValue.int teamID),
    rfl, rfl, rfl, rfl, rfl, ?_⟩
  intro SignedString
  refine ⟨?_, ?_⟩
  · intro signed h
    simp only [GenerateToken, h]
    rfl
  · intro err h
    simp only [GenerateToken, h]

/-- Witness for C14: a signer that accepts key 1 and rejects every other key. -/
theorem C14_generate_token_witness :
    GenerateToken "RS256"
        (fun (_ : jwt.Token String) (key : Nat) =>
          if key = 1 then Except.ok "signed" else Except.error "bad key")
        (NewTokenGenerator 1) { sec := 1500000000, nsec := 0 } "main" 42 =
      ("Bearer", "signed", none) ∧
    GenerateToken "RS256"
        (fun (_ : jwt.Token String) (key : Nat) =>
          if key = 1 then Except.ok "signed" else Except.error "bad key")
        (NewTokenGenerator 0) { sec := 1500000000, nsec := 0 } "main" 42 =
      ("", "", some "bad key") :=
  match C14_generate_token "RS256" (NewTokenGenerator 1)
      { sec := 1500000000, nsec := 0 } "main" 42,
    C14_generate_token "RS256" (NewTokenGenerator 0)
      { sec := 1500000000, nsec := 0 } "main" 42 with
  | ⟨_, _, _, _, _, _, h1⟩, ⟨_, _, _, _, _, _, h0⟩ =>
    ⟨(h1 (fun _ key => if key = 1 then Except.ok "signed" else Except.error "bad key")).1
        "signed" rfl,
     (h0 (fun _ key => if key = 1 then Except.ok "signed" else Except.error "bad key")).2
        "bad key" rfl⟩

end Auth
